import Mathlib

/-!
# Verification of the buildmap NOC planning core

Shallow embedding of `src/buildmap/plugins/noc/__init__.py` (class `NocPlugin`):
the topology loader (`get_links`), tree orientation (`order_links_from_location`),
capacity validation (`_validate_child_link_cores`), logical-link coalescing
(`_make_logical_link`) and plan generation (`generate_plan`).

Locations are identified by their (unique) name, modelled as a natural number.
The Python code mutates `Link` objects in place; here the link store is a
function `Nat → Link` indexed by position in the plugin's `self.links` list,
updated functionally.  Python's `self.processed_links` is a set of link
objects, which (since each object occurs once in the list) is modelled as a
set of indices.  Warnings are Python strings built with `%`-formatting; they
are modelled as a structured inductive carrying exactly the data interpolated
into the format string.
-/

namespace NocPlugin

/-- Link medium, from `buildmap.plugins.noc.data.LinkType` (values Copper / Fibre). -/
inductive LinkType where
  | Copper : LinkType
  | Fibre : LinkType
deriving DecidableEq, Repr

/-- Modelled from the spec: `Location` of `buildmap.plugins.noc.data` is not under
`src/`.  Per spec section 3 it has `name` (unique identity key), `cores_required`
(integer, default 1) and `deployed` (boolean); identity/equality is by name. -/
structure Location where
  name : Nat
  cores_required : Nat
  deployed : Bool
deriving DecidableEq, Repr

/-- Modelled from the spec: `Link` of `buildmap.plugins.noc.data` is not under
`src/`.  Per spec section 3 it has `from_location` / `to_location` (location
references, here by name), `type`, `length`, declared `cores`, computed
`cores_used` (unset until validation assigns it), `deployed`, `aggregated`
and an optional `fibre_name`. -/
structure Link where
  from_location : Nat
  to_location : Nat
  type : LinkType
  length : Nat
  cores : Nat
  cores_used : Option Nat
  deployed : Bool
  aggregated : Bool
  fibre_name : Option String
deriving DecidableEq, Repr

instance : Inhabited Link :=
  ⟨{ from_location := 0, to_location := 0, type := LinkType.Copper, length := 0,
     cores := 0, cores_used := none, deployed := false, aggregated := false,
     fibre_name := none }⟩

/-- The in-place swap performed by `order_links_from_location`:
`link.to_location, link.from_location = link.from_location, link.to_location`. -/
def Link.swap (l : Link) : Link :=
  { l with from_location := l.to_location, to_location := l.from_location }

@[simp] theorem Link.swap_swap (l : Link) : l.swap.swap = l := rfl

@[simp] theorem Link.swap_from (l : Link) : l.swap.from_location = l.to_location := rfl

@[simp] theorem Link.swap_to (l : Link) : l.swap.to_location = l.from_location := rfl

/-- Structured model of the strings appended to `self.warnings` by `_warning`.
Each constructor records the data interpolated into the corresponding format
string in the source. -/
inductive Warning where
  /-- "Location %s has an infinite loop of links!" -/
  | cycleDetected (location : Nat) : Warning
  /-- "Link 0x%s on %s layer does not %s at a switch" (`atStart` true for "start"). -/
  | endpointNoSwitch (entityhandle : Nat) (atStart : Bool) : Warning
  /-- "Link 0x%s on %s layer %ss at multiple switches (%s)". -/
  | endpointMultiSwitch (entityhandle : Nat) (atStart : Bool) : Warning
  /-- "%s link from %s to %s had no cores, assuming 1". -/
  | missingCores (type : LinkType) (fromLoc toLoc : Nat) : Warning
  /-- "Link from %s to %s requires %d cores but only has %d". -/
  | capacityShortfall (fromLoc toLoc : Nat) (required has : Nat) : Warning
  /-- "Specified core switch %s does not exist. Using first available switch as root." -/
  | unresolvedRoot (core : Option Nat) : Warning
  /-- "Unable to trace logical uplink for %s". -/
  | untraceableUplink (location : Nat) : Warning
deriving DecidableEq, Repr

/-- The mutable plugin state relevant to orientation: `self.links` (an indexed
store of the link list, constant length `n`), `self.processed_links` (set of
link indices), `self.processed_locations` (set of location names) and
`self.warnings`. -/
structure OState where
  n : Nat
  links : Nat → Link
  processedLinks : List Nat
  processedLocations : List Nat
  warnings : List Warning

/-- Build the state from a loaded link list, as at entry to `generate_plan`'s
orientation phase (`processed_locations`/`processed_links` reset to empty). -/
def initState (L : List Link) : OState :=
  { n := L.length
    links := fun i => L.getD i default
    processedLinks := []
    processedLocations := []
    warnings := [] }

/-- First loop of `order_links_from_location`: every link whose `to_location`
is the current location and which is not in `processed_links` has its
endpoints swapped.  The loop body touches only the link at hand and the
condition does not depend on the loop's own writes, so the sequential pass is
the pointwise update. -/
def swapPass (loc : Nat) (s : OState) : OState :=
  { s with links := fun i =>
      if i < s.n ∧ (s.links i).to_location = loc ∧ i ∉ s.processedLinks then
        (s.links i).swap
      else s.links i }

/-- Second loop of `order_links_from_location` over the link list: for each
link whose `from_location` (in the current state) is the current location,
add it to `processed_links` and recurse into its `to_location`.  `rec` is the
recursive call at one smaller fuel. -/
def orderLoop (rec : Nat → OState → OState) (loc : Nat) : List Nat → OState → OState
  | [], s => s
  | i :: rest, s =>
    if (s.links i).from_location = loc then
      let s1 : OState := { s with processedLinks := i :: s.processedLinks }
      orderLoop rec loc rest (rec (s1.links i).to_location s1)
    else
      orderLoop rec loc rest s

/-- `order_links_from_location` (source lines 216-236), with a fuel parameter
standing in for Python's unbounded recursion; `orderLinks_stable` below shows
the result does not depend on the fuel once it exceeds the number of distinct
unvisited locations, which is the precise sense in which the recursion
terminates. -/
def orderLinks : Nat → Nat → OState → OState
  | 0, _, s => s
  | fuel + 1, loc, s =>
    if loc ∈ s.processedLocations then
      { s with warnings := s.warnings ++ [Warning.cycleDetected loc] }
    else
      let s1 : OState := { s with processedLocations := loc :: s.processedLocations }
      let s2 : OState := swapPass loc s1
      orderLoop (orderLinks fuel) loc (List.range s2.n) s2

/-- All location names occurring as an endpoint of some link of the state. -/
def locSet (s : OState) : Finset Nat :=
  (Finset.range s.n).biUnion fun i =>
    {(s.links i).from_location, (s.links i).to_location}

/-- Number of endpoint locations not yet visited; the recursion depth of
`order_links_from_location` beyond the first call is bounded by it. -/
def measureOf (s : OState) : Nat :=
  (locSet s \ s.processedLocations.toFinset).card

/-- The completed run of `order_links_from_location` at a location: fuel one
more than the number of unvisited endpoint locations always suffices
(`orderLinks_stable`). -/
def orderRun (loc : Nat) (s : OState) : OState :=
  orderLinks (measureOf s + 1) loc s

/-! ## Evolution relation

Everything `order_links_from_location` may do to the state: the link list keeps
its length, each link is kept or endpoint-swapped, links beyond the list are
untouched, the processed sets only grow, and a link is touched (swapped or
processed) only if one of its endpoints gets visited. -/

/-- Invariant relation between a state and any state reachable from it by the
orientation recursion. -/
structure Evol (s s' : OState) : Prop where
  n_eq : s'.n = s.n
  links_or_swap : ∀ i, s'.links i = s.links i ∨ s'.links i = (s.links i).swap
  frozen_high : ∀ i, ¬ i < s.n → s'.links i = s.links i
  locs_mono : ∀ u, u ∈ s.processedLocations → u ∈ s'.processedLocations
  plinks_mono : ∀ i, i ∈ s.processedLinks → i ∈ s'.processedLinks
  frame : ∀ i, (s'.links i = s.links i ∧ (i ∈ s'.processedLinks ↔ i ∈ s.processedLinks)) ∨
      (s.links i).from_location ∈ s'.processedLocations ∨
      (s.links i).to_location ∈ s'.processedLocations

theorem Evol.refl (s : OState) : Evol s s :=
  ⟨rfl, fun _ => Or.inl rfl, fun _ _ => rfl, fun _ h => h, fun _ h => h,
   fun _ => Or.inl ⟨rfl, Iff.rfl⟩⟩

theorem Evol.trans {s t u : OState} (h1 : Evol s t) (h2 : Evol t u) : Evol s u := by
  refine ⟨h2.n_eq.trans h1.n_eq, ?_, ?_, ?_, ?_, ?_⟩
  · intro i
    rcases h2.links_or_swap i with h | h <;> rcases h1.links_or_swap i with h' | h' <;>
      rw [h, h'] <;> simp [Link.swap_swap]
  · intro i hi
    rw [h2.frozen_high i (h1.n_eq ▸ hi), h1.frozen_high i hi]
  · exact fun u hu => h2.locs_mono u (h1.locs_mono u hu)
  · exact fun i hi => h2.plinks_mono i (h1.plinks_mono i hi)
  · intro i
    rcases h1.frame i with ⟨hl, hp⟩ | hin
    · rcases h2.frame i with ⟨hl', hp'⟩ | hin'
      · exact Or.inl ⟨hl'.trans hl, hp'.trans hp⟩
      · rw [hl] at hin'
        exact Or.inr hin'
    · rcases hin with h | h
      · exact Or.inr (Or.inl (h2.locs_mono _ h))
      · exact Or.inr (Or.inr (h2.locs_mono _ h))

theorem evol_orderLoop (rec : Nat → OState → OState)
    (hrec : ∀ u t, Evol t (rec u t)) (loc : Nat) :
    ∀ (js : List Nat) (s : OState), loc ∈ s.processedLocations →
      Evol s (orderLoop rec loc js s)
  | [], s, _ => Evol.refl s
  | i :: rest, s, hloc => by
    rw [orderLoop]
    by_cases hc : (s.links i).from_location = loc
    · rw [if_pos hc]
      set s1 : OState := { s with processedLinks := i :: s.processedLinks } with hs1
      have e1 : Evol s s1 := by
        refine ⟨rfl, fun _ => Or.inl rfl, fun _ _ => rfl, fun _ h => h,
          fun j hj => List.mem_cons_of_mem _ hj, ?_⟩
        intro j
        by_cases hji : j = i
        · subst hji
          exact Or.inr (Or.inl (hc ▸ hloc))
        · exact Or.inl ⟨rfl, by simp [hs1, hji]⟩
      have e2 : Evol s1 (rec (s1.links i).to_location s1) := hrec _ _
      have e3 : Evol (rec (s1.links i).to_location s1)
          (orderLoop rec loc rest (rec (s1.links i).to_location s1)) :=
        evol_orderLoop rec hrec loc rest _ (e2.locs_mono _ hloc)
      exact (e1.trans e2).trans e3
    · rw [if_neg hc]
      exact evol_orderLoop rec hrec loc rest s hloc

/-- The state after the cycle guard passes: the location is marked visited and
the first loop swaps its unprocessed incoming links. -/
def visitState (loc : Nat) (s : OState) : OState :=
  swapPass loc { s with processedLocations := loc :: s.processedLocations }

theorem evol_visitState (loc : Nat) (s : OState) : Evol s (visitState loc s) := by
  set s1 : OState := { s with processedLocations := loc :: s.processedLocations } with hs1
  refine ⟨rfl, ?_, ?_, fun u hu => List.mem_cons_of_mem _ hu, fun _ h => h, ?_⟩
  · intro i
    by_cases hcond : i < s1.n ∧ (s1.links i).to_location = loc ∧ i ∉ s1.processedLinks
    · exact Or.inr (by simp [visitState, swapPass, if_pos hcond])
    · exact Or.inl (by simp [visitState, swapPass, if_neg hcond])
  · intro i hi
    have : ¬ (i < s1.n ∧ (s1.links i).to_location = loc ∧ i ∉ s1.processedLinks) :=
      fun hcond => hi hcond.1
    simp [visitState, swapPass, if_neg this]
  · intro i
    by_cases hcond : i < s1.n ∧ (s1.links i).to_location = loc ∧ i ∉ s1.processedLinks
    · refine Or.inr (Or.inr ?_)
      have : (visitState loc s).processedLocations = loc :: s.processedLocations := rfl
      rw [this, hcond.2.1]
      exact List.mem_cons_self _ _
    · exact Or.inl ⟨by simp [visitState, swapPass, if_neg hcond], Iff.rfl⟩

theorem orderLinks_succ (fuel loc : Nat) (s : OState) (hg : loc ∉ s.processedLocations) :
    orderLinks (fuel + 1) loc s =
      orderLoop (orderLinks fuel) loc (List.range (visitState loc s).n) (visitState loc s) := by
  rw [orderLinks, if_neg hg]
  rfl

theorem evol_orderLinks : ∀ (fuel loc : Nat) (s : OState), Evol s (orderLinks fuel loc s)
  | 0, _, s => Evol.refl s
  | fuel + 1, loc, s => by
    by_cases hg : loc ∈ s.processedLocations
    · rw [orderLinks, if_pos hg]
      exact ⟨rfl, fun _ => Or.inl rfl, fun _ _ => rfl, fun _ h => h, fun _ h => h,
        fun _ => Or.inl ⟨rfl, Iff.rfl⟩⟩
    · rw [orderLinks_succ fuel loc s hg]
      have e3 : Evol (visitState loc s)
          (orderLoop (orderLinks fuel) loc (List.range (visitState loc s).n)
            (visitState loc s)) :=
        evol_orderLoop (orderLinks fuel) (fun u t => evol_orderLinks fuel u t) loc _ _
          (List.mem_cons_self _ _)
      exact (evol_visitState loc s).trans e3

/-! ## Termination of the orientation recursion -/

theorem locSet_evol {s s' : OState} (h : Evol s s') : locSet s' = locSet s := by
  unfold locSet
  rw [h.n_eq]
  refine Finset.biUnion_congr rfl ?_
  intro i _
  rcases h.links_or_swap i with hl | hl <;> rw [hl]
  rw [Link.swap_from, Link.swap_to]
  exact Finset.pair_comm _ _

theorem measureOf_evol {s s' : OState} (h : Evol s s') : measureOf s' ≤ measureOf s := by
  unfold measureOf
  rw [locSet_evol h]
  refine Finset.card_le_card (Finset.sdiff_subset_sdiff (le_refl _) ?_)
  intro u hu
  rw [List.mem_toFinset] at hu ⊢
  exact h.locs_mono u hu

theorem measureOf_evol_lt {s s' : OState} (h : Evol s s') (v : Nat)
    (hv : v ∈ locSet s) (hnin : v ∉ s.processedLocations)
    (hin : v ∈ s'.processedLocations) : measureOf s' < measureOf s := by
  unfold measureOf
  rw [locSet_evol h]
  have hsub : locSet s \ s'.processedLocations.toFinset ⊆
      (locSet s \ s.processedLocations.toFinset).erase v := by
    intro u hu
    rw [Finset.mem_sdiff] at hu
    rw [Finset.mem_erase, Finset.mem_sdiff]
    refine ⟨?_, hu.1, ?_⟩
    · rintro rfl
      exact hu.2 (List.mem_toFinset.mpr hin)
    · intro hmem
      exact hu.2 (List.mem_toFinset.mpr (h.locs_mono u (List.mem_toFinset.mp hmem)))
  calc (locSet s \ s'.processedLocations.toFinset).card
      ≤ ((locSet s \ s.processedLocations.toFinset).erase v).card := Finset.card_le_card hsub
    _ < (locSet s \ s.processedLocations.toFinset).card := by
        refine Finset.card_erase_lt_of_mem ?_
        rw [Finset.mem_sdiff]
        exact ⟨hv, fun hm => hnin (List.mem_toFinset.mp hm)⟩

theorem orderLoop_skip (rec : Nat → OState → OState) (loc : Nat) :
    ∀ (js : List Nat) (s : OState), (∀ i ∈ js, (s.links i).from_location ≠ loc) →
      orderLoop rec loc js s = s
  | [], _, _ => rfl
  | i :: rest, s, h => by
    rw [orderLoop, if_neg (h i (List.mem_cons_self _ _))]
    exact orderLoop_skip rec loc rest s fun j hj => h j (List.mem_cons_of_mem _ hj)

theorem orderLoop_congr (loc : Nat) (rec1 rec2 : Nat → OState → OState) (M : Nat)
    (hrec : ∀ u t, measureOf t ≤ M → rec1 u t = rec2 u t)
    (hev : ∀ u t, Evol t (rec1 u t)) :
    ∀ (js : List Nat) (s : OState), measureOf s ≤ M →
      orderLoop rec1 loc js s = orderLoop rec2 loc js s
  | [], _, _ => rfl
  | i :: rest, s, hM => by
    rw [orderLoop, orderLoop]
    by_cases hc : (s.links i).from_location = loc
    · rw [if_pos hc, if_pos hc]
      show orderLoop rec1 loc rest
          (rec1 (({ s with processedLinks := i :: s.processedLinks } : OState).links i).to_location
            { s with processedLinks := i :: s.processedLinks }) =
        orderLoop rec2 loc rest
          (rec2 (({ s with processedLinks := i :: s.processedLinks } : OState).links i).to_location
            { s with processedLinks := i :: s.processedLinks })
      have hM1 : measureOf ({ s with processedLinks := i :: s.processedLinks } : OState) ≤ M := hM
      rw [← hrec _ _ hM1]
      exact orderLoop_congr loc rec1 rec2 M hrec hev rest _
        (le_trans (measureOf_evol (hev _ _)) hM1)
    · rw [if_neg hc, if_neg hc]
      exact orderLoop_congr loc rec1 rec2 M hrec hev rest s hM

theorem mem_locSet_from {s : OState} {i : Nat} (hi : i < s.n) :
    (s.links i).from_location ∈ locSet s := by
  unfold locSet
  exact Finset.mem_biUnion.mpr ⟨i, Finset.mem_range.mpr hi, by simp⟩

theorem mem_locSet_to {s : OState} {i : Nat} (hi : i < s.n) :
    (s.links i).to_location ∈ locSet s := by
  unfold locSet
  exact Finset.mem_biUnion.mpr ⟨i, Finset.mem_range.mpr hi, by simp⟩

/-- Fuel-independence: once the fuel exceeds the number of unvisited endpoint
locations, `orderLinks` computes the canonical run `orderRun`.  This is the
termination of `order_links_from_location`: its recursion depth is bounded by
the number of distinct locations, so the Python recursion always returns. -/
theorem orderLinks_stable : ∀ (fuel : Nat), ∀ (loc : Nat) (s : OState),
    measureOf s < fuel → orderLinks fuel loc s = orderRun loc s := by
  intro fuel
  induction fuel using Nat.strong_induction_on with
  | _ fuel ih =>
    intro loc s hm
    match fuel, hm with
    | fuel + 1, hm =>
      have hm' : measureOf s ≤ fuel := Nat.lt_succ_iff.mp hm
      unfold orderRun
      by_cases hg : loc ∈ s.processedLocations
      · rw [orderLinks, if_pos hg, orderLinks, if_pos hg]
      · rw [orderLinks_succ fuel loc s hg, orderLinks_succ (measureOf s) loc s hg]
        set s2 : OState := visitState loc s with hs2
        by_cases hv : loc ∈ locSet s
        · -- the visited location is an endpoint; the measure strictly drops
          have hlt : measureOf s2 < measureOf s :=
            measureOf_evol_lt (evol_visitState loc s) loc hv hg (List.mem_cons_self _ _)
          refine orderLoop_congr loc (orderLinks fuel) (orderLinks (measureOf s)) (measureOf s2)
            ?_ (fun u t => evol_orderLinks fuel u t) (List.range s2.n) s2 (le_refl _)
          intro u t ht
          have htm : measureOf t < measureOf s := lt_of_le_of_lt ht hlt
          have h1 : orderLinks fuel u t = orderRun u t :=
            ih fuel (Nat.lt_succ_self _) u t (lt_of_lt_of_le htm hm')
          have h2 : orderLinks (measureOf s) u t = orderRun u t :=
            ih (measureOf s) hm u t htm
          rw [h1, h2]
        · -- the location touches no link: both loops do nothing
          have hskip : ∀ i ∈ List.range s2.n, (s2.links i).from_location ≠ loc := by
            intro i hir heq
            apply hv
            have hi : i < s2.n := List.mem_range.mp hir
            have hmem : (s2.links i).from_location ∈ locSet s2 := mem_locSet_from hi
            rw [locSet_evol (evol_visitState loc s)] at hmem
            exact heq ▸ hmem
          rw [orderLoop_skip _ _ _ _ hskip, orderLoop_skip _ _ _ _ hskip]

/-! ## Concrete link builder used by witnesses and counterexamples -/

/-- A link with the given endpoints, medium, aggregation flag and core count
(the remaining fields as produced by `get_links` for a plain 10 m deployed
line with no fibre label). -/
def plainLink (f t : Nat) (ty : LinkType) (agg : Bool) (c : Nat) : Link :=
  { from_location := f, to_location := t, type := ty, length := 10, cores := c,
    cores_used := none, deployed := true, aggregated := agg, fibre_name := none }

/-- C8: `order_links_from_location(root)` leaves a link both of whose endpoints
are never reached from the root (never entered into `processed_locations`)
fully unchanged: its endpoints are not swapped, it is not added to
`processed_links`, and the link list keeps its length (nothing is deleted). -/
theorem order_links_frame_unreachable (L : List Link) (root i : Nat)
    (hfrom : ((initState L).links i).from_location ∉
      (orderRun root (initState L)).processedLocations)
    (hto : ((initState L).links i).to_location ∉
      (orderRun root (initState L)).processedLocations) :
    (orderRun root (initState L)).links i = (initState L).links i ∧
      i ∉ (orderRun root (initState L)).processedLinks ∧
      (orderRun root (initState L)).n = (initState L).n := by
  have hev : Evol (initState L) (orderRun root (initState L)) := evol_orderLinks _ _ _
  rcases hev.frame i with ⟨hl, hp⟩ | hin | hin
  · refine ⟨hl, fun hmem => ?_, hev.n_eq⟩
    have : i ∈ (initState L).processedLinks := hp.mp hmem
    simp [initState] at this
  · exact absurd hin hfrom
  · exact absurd hin hto

/-- Witness for C8: a single link between locations 1 and 2, oriented from a
root 0 that touches no link: the run reaches neither endpoint and the link is
untouched and unprocessed. -/
theorem order_links_frame_unreachable_w :
    (((initState [plainLink 1 2 LinkType.Fibre false 1]).links 0).from_location ∉
        (orderRun 0 (initState [plainLink 1 2 LinkType.Fibre false 1])).processedLocations) ∧
      ((orderRun 0 (initState [plainLink 1 2 LinkType.Fibre false 1])).links 0 =
          (initState [plainLink 1 2 LinkType.Fibre false 1]).links 0 ∧
        0 ∉ (orderRun 0 (initState [plainLink 1 2 LinkType.Fibre false 1])).processedLinks ∧
        (orderRun 0 (initState [plainLink 1 2 LinkType.Fibre false 1])).n =
          (initState [plainLink 1 2 LinkType.Fibre false 1]).n) :=
  ⟨by decide, order_links_frame_unreachable [plainLink 1 2 LinkType.Fibre false 1] 0 0
    (by decide) (by decide)⟩

/-- C4 (amended): orientation always terminates — the recursion stabilises as
soon as the fuel exceeds the number of distinct unvisited endpoint locations —
and on the cited cycle A→B→C→A (A = 0 the root) it appends exactly one
cycle-detected warning.  (The "exactly one" part does not extend to every link
set containing a reachable directed cycle, see the counterexample.) -/
theorem order_links_cycle_safety :
    (∀ (fuel loc : Nat) (s : OState), measureOf s < fuel →
        orderLinks fuel loc s = orderRun loc s) ∧
      (orderRun 0 (initState [plainLink 0 1 LinkType.Fibre false 1,
          plainLink 1 2 LinkType.Fibre false 1,
          plainLink 2 0 LinkType.Fibre false 1])).warnings =
        [Warning.cycleDetected 0] :=
  ⟨orderLinks_stable, by decide⟩

/-- Witness for C4: on the concrete three-link cycle, fuel 4 exceeds the
measure 3 and the run equals the canonical one. -/
theorem order_links_cycle_safety_w :
    measureOf (initState [plainLink 0 1 LinkType.Fibre false 1,
        plainLink 1 2 LinkType.Fibre false 1,
        plainLink 2 0 LinkType.Fibre false 1]) < 4 ∧
      orderLinks 4 0 (initState [plainLink 0 1 LinkType.Fibre false 1,
          plainLink 1 2 LinkType.Fibre false 1,
          plainLink 2 0 LinkType.Fibre false 1]) =
        orderRun 0 (initState [plainLink 0 1 LinkType.Fibre false 1,
          plainLink 1 2 LinkType.Fibre false 1,
          plainLink 2 0 LinkType.Fibre false 1]) :=
  ⟨by decide, order_links_cycle_safety.1 4 0 _ (by decide)⟩

/-- Counterexample to C4 as stated: the link set 0→1, 1→0, 1→0 contains a
directed cycle through the root 0, yet orientation appends two cycle-detected
warnings, not exactly one. -/
theorem order_links_cycle_safety_cex :
    (initState [plainLink 0 1 LinkType.Fibre false 1,
        plainLink 1 0 LinkType.Fibre false 1,
        plainLink 1 0 LinkType.Fibre false 1]).links 0 =
        plainLink 0 1 LinkType.Fibre false 1 ∧
      (initState [plainLink 0 1 LinkType.Fibre false 1,
          plainLink 1 0 LinkType.Fibre false 1,
          plainLink 1 0 LinkType.Fibre false 1]).links 1 =
        plainLink 1 0 LinkType.Fibre false 1 ∧
      (orderRun 0 (initState [plainLink 0 1 LinkType.Fibre false 1,
          plainLink 1 0 LinkType.Fibre false 1,
          plainLink 1 0 LinkType.Fibre false 1])).warnings =
        [Warning.cycleDetected 0, Warning.cycleDetected 0] ∧
      ¬ (orderRun 0 (initState [plainLink 0 1 LinkType.Fibre false 1,
          plainLink 1 0 LinkType.Fibre false 1,
          plainLink 1 0 LinkType.Fibre false 1])).warnings.length = 1 := by
  refine ⟨by decide, by decide, by decide, by decide⟩

/-! ## The topology loader: `get_links` (source lines 168-214) -/

/-- `UPDOWN_LENGTH`: metres added per up-and-down of a festoon pole. -/
def UPDOWN_LENGTH : Nat := 6

/-- Modelled from the spec: one row of the external spatial provider's
`lines_in_layer` result (spec section 6), combined with the provider's
`nearest_point_in_layer` responses for the row's start and end points
(`startMatches` / `endMatches`: the location names within the buffer
distance).  `cores`, `deployed`, `aggregated` and `fiber` are nullable
columns read through `get_col` of the (absent) util module, which per the
loader contract returns the column's value when present and a null default
otherwise; `cores = none` models an absent, null or empty (falsy) value. -/
structure Row where
  entityhandle : Nat
  rtype : LinkType
  length : Nat
  updowns : Option Nat
  cores : Option Nat
  deployed : Option String
  aggregated : Option String
  fiber : Option String
  startMatches : List Nat
  endMatches : List Nat
deriving DecidableEq, Repr

/-- The entity handle interpolated into an endpoint-resolution warning. -/
def Warning.entityOf : Warning → Option Nat
  | Warning.endpointNoSwitch e _ => some e
  | Warning.endpointMultiSwitch e _ => some e
  | _ => none

/-- `_find_location_from_link` (source lines 120-166): fewer than one matching
switch or more than one matching switch each warn (identifying the link's
entity handle and which end failed) and resolve to nothing; a unique match
resolves to that location. -/
def find_location_from_link (row : Row) (atStart : Bool) : Option Nat × List Warning :=
  match (if atStart then row.startMatches else row.endMatches) with
  | [] => (none, [Warning.endpointNoSwitch row.entityhandle atStart])
  | [x] => (some x, [])
  | _ :: _ :: _ => (none, [Warning.endpointMultiSwitch row.entityhandle atStart])

/-- The body of `get_links`' row loop (source lines 179-214): resolve both
endpoints (start first, then end, each possibly warning), skip the row if
either is unresolved, otherwise build the `Link`: length gains
`updowns × UPDOWN_LENGTH`, an absent/falsy `cores` defaults to 1 with a
warning naming the medium and both endpoints, `deployed` is the exact string
"true", and `aggregated` is mere presence of the column. -/
def processRow (row : Row) : Option Link × List Warning :=
  let fr := find_location_from_link row true
  let tr := find_location_from_link row false
  match fr.1, tr.1 with
  | some f, some t =>
    let len := row.length + (match row.updowns with
      | some u => u * UPDOWN_LENGTH
      | none => 0)
    (match row.cores with
      | some c =>
        (some { from_location := f, to_location := t, type := row.rtype, length := len,
                cores := c, cores_used := none,
                deployed := decide (row.deployed = some "true"),
                aggregated := row.aggregated.isSome, fibre_name := row.fiber },
         fr.2 ++ tr.2)
      | none =>
        (some { from_location := f, to_location := t, type := row.rtype, length := len,
                cores := 1, cores_used := none,
                deployed := decide (row.deployed = some "true"),
                aggregated := row.aggregated.isSome, fibre_name := row.fiber },
         fr.2 ++ tr.2 ++ [Warning.missingCores row.rtype f t]))
  | _, _ => (none, fr.2 ++ tr.2)

/-- `get_links` over all rows: links and warnings accumulate in row order. -/
def get_links : List Row → List Link × List Warning
  | [] => ([], [])
  | row :: rest =>
    let pr := processRow row
    let gr := get_links rest
    ((match pr.1 with
      | some link => link :: gr.1
      | none => gr.1), pr.2 ++ gr.2)

/-- C6 (amended): a row with an unresolved endpoint (zero or several matches at
start or end) yields no link and at least one warning, each warning naming the
row's entity handle; a row whose start matches nothing while the end resolves
uniquely yields zero links and exactly one warning per unresolved endpoint —
here exactly the single no-switch-at-start warning.  (A row with both
endpoints unresolved yields two warnings, see the counterexample.) -/
theorem get_links_unresolved_endpoint (row : Row)
    (hbad : row.startMatches.length ≠ 1 ∨ row.endMatches.length ≠ 1) :
    (processRow row).1 = none ∧
      (get_links [row]).1 = [] ∧
      (processRow row).2 ≠ [] ∧
      (∀ w ∈ (processRow row).2, Warning.entityOf w = some row.entityhandle) ∧
      (row.startMatches = [] → ∀ t, row.endMatches = [t] →
        (processRow row).2 = [Warning.endpointNoSwitch row.entityhandle true]) := by
  have hnone : (processRow row).1 = none ∧ (processRow row).2 ≠ [] ∧
      (∀ w ∈ (processRow row).2, Warning.entityOf w = some row.entityhandle) := by
    rcases hs : row.startMatches with _ | ⟨x, _ | ⟨y, xs⟩⟩ <;>
      rcases he : row.endMatches with _ | ⟨a, _ | ⟨b, as⟩⟩ <;>
      simp_all [processRow, find_location_from_link, Warning.entityOf]
  refine ⟨hnone.1, ?_, hnone.2.1, hnone.2.2, ?_⟩
  · simp [get_links, hnone.1]
  · intro hs t he
    simp [processRow, find_location_from_link, hs, he]

/-- A row whose start point matches no location while its end resolves
uniquely to location 4 (C6 witness data). -/
def rowStartUnmatched : Row :=
  { entityhandle := 7, rtype := LinkType.Fibre, length := 25, updowns := none,
    cores := some 4, deployed := some "true", aggregated := none, fiber := none,
    startMatches := [], endMatches := [4] }

/-- Witness for C6: a row whose start matches nothing and whose end resolves
to location 4: no link, exactly one warning naming entity 7. -/
theorem get_links_unresolved_endpoint_w :
    (rowStartUnmatched.startMatches.length ≠ 1 ∨
        rowStartUnmatched.endMatches.length ≠ 1) ∧
      (processRow rowStartUnmatched).1 = none ∧
      (processRow rowStartUnmatched).2 = [Warning.endpointNoSwitch 7 true] :=
  ⟨Or.inl (by decide),
    (get_links_unresolved_endpoint rowStartUnmatched (Or.inl (by decide))).1,
    (get_links_unresolved_endpoint rowStartUnmatched (Or.inl (by decide))).2.2.2.2 rfl 4 rfl⟩

/-- A row with both endpoints unmatched (C6 counterexample data). -/
def rowBothUnmatched : Row :=
  { entityhandle := 9, rtype := LinkType.Copper, length := 12, updowns := none,
    cores := some 2, deployed := none, aggregated := none, fiber := none,
    startMatches := [], endMatches := [] }

/-- Counterexample to C6 as stated: a line whose start matches no location (its
end also matching none) yields zero links yet two UnresolvedEndpoint warnings,
not one. -/
theorem get_links_unresolved_endpoint_cex :
    rowBothUnmatched.startMatches = [] ∧
      (get_links [rowBothUnmatched]).1 = [] ∧
      (get_links [rowBothUnmatched]).2 =
        [Warning.endpointNoSwitch 9 true, Warning.endpointNoSwitch 9 false] ∧
      ¬ (get_links [rowBothUnmatched]).2.length = 1 := by
  refine ⟨rfl, rfl, rfl, by decide⟩

/-- C7 (amended): for a row whose endpoints both resolve, the missing-capacity
warning is emitted if and only if the row lacks a declared core count — for a
link of either medium, not only Fibre — in which case `cores` defaults to 1; a
declared core count is taken verbatim with no warning. -/
theorem get_links_missing_capacity (row : Row) (f t : Nat)
    (hs : row.startMatches = [f]) (he : row.endMatches = [t]) :
    (row.cores = none →
      (processRow row).2 = [Warning.missingCores row.rtype f t] ∧
        (processRow row).1.map Link.cores = some 1) ∧
    (∀ c, row.cores = some c →
      (processRow row).2 = [] ∧ (processRow row).1.map Link.cores = some c) := by
  constructor
  · intro hc
    simp [processRow, find_location_from_link, hs, he, hc]
  · intro c hc
    simp [processRow, find_location_from_link, hs, he, hc]

/-- A Fibre row lacking a declared core count (C7 witness data). -/
def rowFibreNoCores : Row :=
  { entityhandle := 3, rtype := LinkType.Fibre, length := 40, updowns := none,
    cores := none, deployed := some "true", aggregated := none, fiber := some "f1",
    startMatches := [1], endMatches := [2] }

/-- Witness for C7: a Fibre row with no declared cores warns and defaults to 1. -/
theorem get_links_missing_capacity_w :
    (processRow rowFibreNoCores).2 = [Warning.missingCores LinkType.Fibre 1 2] ∧
      (processRow rowFibreNoCores).1.map Link.cores = some 1 :=
  (get_links_missing_capacity rowFibreNoCores 1 2 rfl rfl).1 rfl

/-- A Copper row lacking a declared core count (C7 counterexample data). -/
def rowCopperNoCores : Row :=
  { entityhandle := 5, rtype := LinkType.Copper, length := 15, updowns := none,
    cores := none, deployed := none, aggregated := none, fiber := none,
    startMatches := [5], endMatches := [6] }

/-- Counterexample to C7 as stated: a Copper row lacking a declared core count
also gets the missing-capacity warning, so the warning is not emitted only for
Fibre links. -/
theorem get_links_missing_capacity_cex :
    rowCopperNoCores.rtype = LinkType.Copper ∧
      rowCopperNoCores.cores = none ∧
      (processRow rowCopperNoCores).2 = [Warning.missingCores LinkType.Copper 5 6] ∧
      ¬ (processRow rowCopperNoCores).2 = [] := by
  refine ⟨rfl, rfl, rfl, by decide⟩

/-- C10: for every row whose endpoints resolve, the built link's `aggregated`
flag is set exactly when the row's aggregated column is present (non-null),
regardless of its value, while `deployed` is set only when the deployed column
holds exactly the string "true". -/
theorem get_links_aggregated_deployed (row : Row) (f t : Nat)
    (hs : row.startMatches = [f]) (he : row.endMatches = [t]) :
    (processRow row).1.map Link.aggregated = some row.aggregated.isSome ∧
      (processRow row).1.map Link.deployed = some (decide (row.deployed = some "true")) := by
  cases hc : row.cores <;>
    simp [processRow, find_location_from_link, hs, he, hc]

/-- A row whose aggregated column holds the string "false" and whose deployed
column holds the string "false" (C10 witness data). -/
def rowAggFalse : Row :=
  { entityhandle := 8, rtype := LinkType.Fibre, length := 30, updowns := none,
    cores := some 2, deployed := some "false", aggregated := some "false",
    fiber := none, startMatches := [1], endMatches := [2] }

/-- Witness for C10: a row whose aggregated column holds "false" and whose
deployed column holds "false" yields a link that is aggregated but not
deployed. -/
theorem get_links_aggregated_deployed_w :
    (processRow rowAggFalse).1.map Link.aggregated = some true ∧
      (processRow rowAggFalse).1.map Link.deployed = some false :=
  get_links_aggregated_deployed rowAggFalse 1 2 rfl rfl

/-! ## The capacity validator: `_validate_child_link_cores` (source lines 238-267)

The validator runs on the oriented state; it reads `cores_required` of a
location through `req` (the loaded `locations` map) and mutates only the
`cores_used` field of fibre links leaving the visited locations.  The fuel
models Python's unbounded recursion: `none` is the recursion failing to
return (which on acyclic oriented links never happens for sufficient fuel,
see `validate_adequate`). -/

/-- Write `cores_used` of the link at index `i` (the in-place
`link.cores_used = ...` assignment). -/
def setCoresUsed (s : OState) (i v : Nat) : OState :=
  { s with links := fun j =>
      if j = i then { s.links j with cores_used := some v } else s.links j }

/-- The loop of `_validate_child_link_cores` over the link list: a Fibre link
leaving the location contributes 0 to the sum if aggregated (its `cores_used`
set to 1) and the child's recursively computed value otherwise (written to its
`cores_used`); a shortfall of declared cores below the contribution warns.
In the aggregated branch the source's shortfall test `link.cores < 0` can
never fire (core counts are non-negative), so it is omitted here.  `rec` is
the recursive call at one smaller fuel. -/
def validateLoop (rec : Nat → OState → Option (Nat × OState)) (loc : Nat) :
    List Nat → Nat → OState → Option (Nat × OState)
  | [], acc, s => some (acc, s)
  | i :: rest, acc, s =>
    let link := s.links i
    if link.type = LinkType.Fibre ∧ link.from_location = loc then
      if link.aggregated then
        validateLoop rec loc rest (acc + 0) (setCoresUsed s i 1)
      else
        match rec link.to_location s with
        | none => none
        | some (c, t) =>
          validateLoop rec loc rest (acc + c)
            (if link.cores < c then
              { setCoresUsed t i c with warnings := (setCoresUsed t i c).warnings ++
                  [Warning.capacityShortfall loc link.to_location c link.cores] }
            else setCoresUsed t i c)
    else
      validateLoop rec loc rest acc s

/-- `_validate_child_link_cores(location)`: starts from the location's own
`cores_required` and folds the loop over the link list. -/
def validate_child_link_cores : Nat → (Nat → Nat) → Nat → OState → Option (Nat × OState)
  | 0, _, _, _ => none
  | fuel + 1, req, loc, s =>
    validateLoop (fun u t => validate_child_link_cores fuel req u t) loc
      (List.range s.n) (req loc) s

/-- Pure counterpart of the validator loop for the required-cores value. -/
def requiredLoop (rc : Nat → Option Nat) (L : Nat → Link) (loc : Nat) :
    List Nat → Nat → Option Nat
  | [], a => some a
  | i :: rest, a =>
    let link := L i
    if link.type = LinkType.Fibre ∧ link.from_location = loc then
      if link.aggregated then
        requiredLoop rc L loc rest (a + 0)
      else
        match rc link.to_location with
        | none => none
        | some c => requiredLoop rc L loc rest (a + c)
    else
      requiredLoop rc L loc rest a

/-- The required-cores recurrence actually implemented: the location's own
requirement plus, over the Fibre links leaving it, the child's recursively
computed value for a non-aggregated link and 0 for an aggregated one; Copper
links contribute nothing. -/
def requiredCoresAmended : Nat → (Nat → Link) → Nat → (Nat → Nat) → Nat → Option Nat
  | 0, _, _, _, _ => none
  | fuel + 1, L, n, req, loc =>
    requiredLoop (fun u => requiredCoresAmended fuel L n req u) L loc
      (List.range n) (req loc)

/-- Pure counterpart of the validator loop as the claim words it (an
aggregated link contributes exactly 1). -/
def requiredLoopClaim (rc : Nat → Option Nat) (L : Nat → Link) (loc : Nat) :
    List Nat → Nat → Option Nat
  | [], a => some a
  | i :: rest, a =>
    let link := L i
    if link.type = LinkType.Fibre ∧ link.from_location = loc then
      if link.aggregated then
        requiredLoopClaim rc L loc rest (a + 1)
      else
        match rc link.to_location with
        | none => none
        | some c => requiredLoopClaim rc L loc rest (a + c)
    else
      requiredLoopClaim rc L loc rest a

/-- The required-cores recurrence as the claim states it: an aggregated link
contributes exactly 1 to the sum. -/
def requiredCoresClaim : Nat → (Nat → Link) → Nat → (Nat → Nat) → Nat → Option Nat
  | 0, _, _, _, _ => none
  | fuel + 1, L, n, req, loc =>
    requiredLoopClaim (fun u => requiredCoresClaim fuel L n req u) L loc
      (List.range n) (req loc)

/-- Agreement of two link stores on every field the validator reads
(everything except the mutated `cores_used`). -/
def keyEq (L1 L2 : Nat → Link) : Prop :=
  ∀ i, (L1 i).from_location = (L2 i).from_location ∧
    (L1 i).to_location = (L2 i).to_location ∧
    (L1 i).type = (L2 i).type ∧
    (L1 i).cores = (L2 i).cores ∧
    (L1 i).aggregated = (L2 i).aggregated

theorem keyEq_refl (L : Nat → Link) : keyEq L L :=
  fun _ => ⟨rfl, rfl, rfl, rfl, rfl⟩

theorem keyEq_trans {L1 L2 L3 : Nat → Link} (h1 : keyEq L1 L2) (h2 : keyEq L2 L3) :
    keyEq L1 L3 := by
  intro i
  obtain ⟨a1, b1, c1, d1, e1⟩ := h1 i
  obtain ⟨a2, b2, c2, d2, e2⟩ := h2 i
  exact ⟨a1.trans a2, b1.trans b2, c1.trans c2, d1.trans d2, e1.trans e2⟩

theorem keyEq_setCoresUsed (s : OState) (i v : Nat) :
    keyEq (setCoresUsed s i v).links s.links := by
  intro j
  by_cases h : j = i <;> simp [setCoresUsed, h]

/-- The sum computed by the validator loop refines the pure required-cores
loop, and the loop only rewrites `cores_used` (preserving the key fields and
the list length). -/
theorem validateLoop_spec (rec : Nat → OState → Option (Nat × OState))
    (rc : Nat → Option Nat) (L : Nat → Link) (nv loc : Nat)
    (hrec : ∀ u t, keyEq t.links L → t.n = nv →
      Option.map Prod.fst (rec u t) = rc u ∧
      (∀ c t', rec u t = some (c, t') → keyEq t'.links L ∧ t'.n = nv)) :
    ∀ (js : List Nat) (acc : Nat) (s : OState), keyEq s.links L → s.n = nv →
      Option.map Prod.fst (validateLoop rec loc js acc s) = requiredLoop rc L loc js acc ∧
      (∀ r t, validateLoop rec loc js acc s = some (r, t) → keyEq t.links L ∧ t.n = nv)
  | [], acc, s, hk, hn => by
    refine ⟨rfl, fun r t h => ?_⟩
    rw [validateLoop] at h
    cases h
    exact ⟨hk, hn⟩
  | i :: rest, acc, s, hk, hn => by
    obtain ⟨hfrom, hto, htype, hcores, hagg⟩ := hk i
    rw [validateLoop, requiredLoop]
    simp only []
    by_cases hcond : (s.links i).type = LinkType.Fibre ∧ (s.links i).from_location = loc
    · have hcond' : (L i).type = LinkType.Fibre ∧ (L i).from_location = loc :=
        ⟨htype ▸ hcond.1, hfrom ▸ hcond.2⟩
      rw [if_pos hcond, if_pos hcond']
      by_cases ha : (s.links i).aggregated
      · have ha' : (L i).aggregated = true := hagg ▸ ha
        rw [if_pos ha, if_pos ha']
        exact validateLoop_spec rec rc L nv loc hrec rest (acc + 0) (setCoresUsed s i 1)
          (keyEq_trans (keyEq_setCoresUsed s i 1) hk) hn
      · have ha' : ¬ (L i).aggregated = true := fun h => ha (hagg.trans h)
        rw [if_neg ha, if_neg ha']
        obtain ⟨hmap, hsome⟩ := hrec (s.links i).to_location s hk hn
        rcases hrc : rec (s.links i).to_location s with _ | ⟨c, t'⟩
        · rw [hrc] at hmap
          have hmaprc : rc ((L i).to_location) = none := by
            rw [← hto, ← hmap]; rfl
          rw [hmaprc]
          exact ⟨rfl, fun r t h => Option.noConfusion h⟩
        · rw [hrc] at hmap
          have hmaprc : rc ((L i).to_location) = some c := by
            rw [← hto, ← hmap]; rfl
          rw [hmaprc]
          obtain ⟨hk', hn'⟩ := hsome c t' hrc
          have hk2 : keyEq (setCoresUsed t' i c).links L :=
            keyEq_trans (keyEq_setCoresUsed t' i c) hk'
          show Option.map Prod.fst (validateLoop rec loc rest (acc + c)
              (if (s.links i).cores < c then
                { setCoresUsed t' i c with warnings := (setCoresUsed t' i c).warnings ++
                    [Warning.capacityShortfall loc (s.links i).to_location c
                      (s.links i).cores] }
              else setCoresUsed t' i c)) = requiredLoop rc L loc rest (acc + c) ∧
            (∀ r t, validateLoop rec loc rest (acc + c)
              (if (s.links i).cores < c then
                { setCoresUsed t' i c with warnings := (setCoresUsed t' i c).warnings ++
                    [Warning.capacityShortfall loc (s.links i).to_location c
                      (s.links i).cores] }
              else setCoresUsed t' i c) = some (r, t) → keyEq t.links L ∧ t.n = nv)
          by_cases hlt : (s.links i).cores < c
          · rw [if_pos hlt]
            exact validateLoop_spec rec rc L nv loc hrec rest (acc + c) _ hk2 hn'
          · rw [if_neg hlt]
            exact validateLoop_spec rec rc L nv loc hrec rest (acc + c) _ hk2 hn'
    · have hcond' : ¬ ((L i).type = LinkType.Fibre ∧ (L i).from_location = loc) := by
        intro h
        exact hcond ⟨htype.trans h.1, hfrom.trans h.2⟩
      rw [if_neg hcond, if_neg hcond']
      exact validateLoop_spec rec rc L nv loc hrec rest acc s hk hn

/-- `_validate_child_link_cores` returns exactly the amended required-cores
recurrence as its sum, at every fuel, and only rewrites `cores_used` fields. -/
theorem validate_spec : ∀ (fuel : Nat) (req : Nat → Nat) (L : Nat → Link) (nv loc : Nat)
    (s : OState), keyEq s.links L → s.n = nv →
    Option.map Prod.fst (validate_child_link_cores fuel req loc s) =
      requiredCoresAmended fuel L nv req loc ∧
    (∀ r t, validate_child_link_cores fuel req loc s = some (r, t) →
      keyEq t.links L ∧ t.n = nv)
  | 0, req, L, nv, loc, s, _, _ => by
    refine ⟨rfl, fun r t h => ?_⟩
    rw [validate_child_link_cores] at h
    cases h
  | fuel + 1, req, L, nv, loc, s, hk, hn => by
    subst hn
    rw [validate_child_link_cores, requiredCoresAmended]
    exact validateLoop_spec _ _ L s.n loc
      (fun u t htk htn => ⟨(validate_spec fuel req L s.n u t htk htn).1,
        fun c t' h => (validate_spec fuel req L s.n u t htk htn).2 c t' h⟩)
      (List.range s.n) (req loc) s hk rfl

/-- Every Fibre link of the store descends strictly in the depth function `d`
(true of the links of a tree oriented away from the root). -/
def FibreDown (d : Nat → Nat) (L : Nat → Link) (nv : Nat) : Prop :=
  ∀ i, i < nv → (L i).type = LinkType.Fibre →
    d ((L i).from_location) < d ((L i).to_location)

instance (d : Nat → Nat) (L : Nat → Link) (nv : Nat) : Decidable (FibreDown d L nv) :=
  decidable_of_iff (∀ i < nv, (L i).type = LinkType.Fibre →
    d ((L i).from_location) < d ((L i).to_location)) Iff.rfl

/-- Writes performed by the validator loop: a link is changed only if it is a
Fibre link leaving the visited location and listed in the loop, or if it was
written by a deeper recursive call, at a strictly greater depth. -/
theorem validateLoop_writes (rec : Nat → OState → Option (Nat × OState))
    (L : Nat → Link) (nv loc : Nat) (d : Nat → Nat) (hd : FibreDown d L nv)
    (hrecK : ∀ u t, keyEq t.links L → t.n = nv →
      ∀ c t', rec u t = some (c, t') → keyEq t'.links L ∧ t'.n = nv)
    (hrecW : ∀ u t, keyEq t.links L → t.n = nv → ∀ c t', rec u t = some (c, t') →
      ∀ j, t'.links j = t.links j ∨ (j < nv ∧ d u ≤ d ((L j).from_location))) :
    ∀ (js : List Nat) (acc : Nat) (s : OState), (∀ j ∈ js, j < nv) →
      keyEq s.links L → s.n = nv →
      ∀ r t, validateLoop rec loc js acc s = some (r, t) →
      ∀ j, t.links j = s.links j ∨
        (j ∈ js ∧ j < nv ∧ (L j).type = LinkType.Fibre ∧ (L j).from_location = loc) ∨
        (j < nv ∧ d loc < d ((L j).from_location))
  | [], acc, s, _, _, _, r, t, h, j => by
    rw [validateLoop] at h
    cases h
    exact Or.inl rfl
  | i :: rest, acc, s, hjs, hk, hn, r, t, h, j => by
    obtain ⟨hfrom, hto, htype, hcores, hagg⟩ := hk i
    rw [validateLoop] at h
    by_cases hcond : (s.links i).type = LinkType.Fibre ∧ (s.links i).from_location = loc
    · rw [if_pos hcond] at h
      have hiL : (L i).type = LinkType.Fibre ∧ (L i).from_location = loc :=
        ⟨htype ▸ hcond.1, hfrom ▸ hcond.2⟩
      have hinv : i < nv := hjs i (List.mem_cons_self _ _)
      by_cases ha : (s.links i).aggregated
      · rw [if_pos ha] at h
        have hrest := validateLoop_writes rec L nv loc d hd hrecK hrecW rest (acc + 0)
          (setCoresUsed s i 1) (fun j hj => hjs j (List.mem_cons_of_mem _ hj))
          (keyEq_trans (keyEq_setCoresUsed s i 1) hk) hn r t h j
        rcases hrest with hrest | hrest | hrest
        · by_cases hji : j = i
          · subst hji
            exact Or.inr (Or.inl ⟨List.mem_cons_self _ _, hinv, hiL.1, hiL.2⟩)
          · refine Or.inl (hrest.trans ?_)
            simp [setCoresUsed, hji]
        · exact Or.inr (Or.inl ⟨List.mem_cons_of_mem _ hrest.1, hrest.2⟩)
        · exact Or.inr (Or.inr hrest)
      · rw [if_neg ha] at h
        rcases hrc : rec (s.links i).to_location s with _ | ⟨c, t'⟩
        · rw [hrc] at h
          cases h
        · rw [hrc] at h
          obtain ⟨hk', hn'⟩ := hrecK _ s hk hn c t' hrc
          have hdu : d loc < d ((s.links i).to_location) := by
            rw [hto]
            have := hd i hinv hiL.1
            rw [hiL.2] at this
            exact this
          have hwru := hrecW _ s hk hn c t' hrc
          set s2 := (if (s.links i).cores < c then
              { setCoresUsed t' i c with warnings := (setCoresUsed t' i c).warnings ++
                  [Warning.capacityShortfall loc (s.links i).to_location c
                    (s.links i).cores] }
            else setCoresUsed t' i c) with hs2
          have hk2 : keyEq s2.links L := by
            have hbase : keyEq (setCoresUsed t' i c).links L :=
              keyEq_trans (keyEq_setCoresUsed t' i c) hk'
            by_cases hlt : (s.links i).cores < c
            · rw [hs2, if_pos hlt]; exact hbase
            · rw [hs2, if_neg hlt]; exact hbase
          have hn2 : s2.n = nv := by
            by_cases hlt : (s.links i).cores < c
            · rw [hs2, if_pos hlt]; exact hn'
            · rw [hs2, if_neg hlt]; exact hn'
          have hl2 : ∀ j, s2.links j = (setCoresUsed t' i c).links j := by
            intro j
            by_cases hlt : (s.links i).cores < c
            · rw [hs2, if_pos hlt]
            · rw [hs2, if_neg hlt]
          have hrest := validateLoop_writes rec L nv loc d hd hrecK hrecW rest (acc + c)
            s2 (fun j hj => hjs j (List.mem_cons_of_mem _ hj)) hk2 hn2 r t h j
        -- combine: t.links j = s2.links j ∨ …; s2.links j = setCoresUsed t' i c |>.links j
          rcases hrest with hrest | hrest | hrest
          · rw [hrest, hl2 j]
            by_cases hji : j = i
            · subst hji
              exact Or.inr (Or.inl ⟨List.mem_cons_self _ _, hinv, hiL.1, hiL.2⟩)
            · have : (setCoresUsed t' i c).links j = t'.links j := by
                simp [setCoresUsed, hji]
              rw [this]
              rcases hwru j with hw | hw
              · exact Or.inl hw
              · exact Or.inr (Or.inr ⟨hw.1, lt_of_lt_of_le hdu (hto ▸ hw.2)⟩)
          · exact Or.inr (Or.inl ⟨List.mem_cons_of_mem _ hrest.1, hrest.2⟩)
          · exact Or.inr (Or.inr hrest)
    · rw [if_neg hcond] at h
      have hrest := validateLoop_writes rec L nv loc d hd hrecK hrecW rest acc s
        (fun j hj => hjs j (List.mem_cons_of_mem _ hj)) hk hn r t h j
      rcases hrest with hrest | hrest | hrest
      · exact Or.inl hrest
      · exact Or.inr (Or.inl ⟨List.mem_cons_of_mem _ hrest.1, hrest.2⟩)
      · exact Or.inr (Or.inr hrest)

/-- Writes performed by `_validate_child_link_cores` at a location: only links
whose from-end is at the location's depth or deeper are touched. -/
theorem validate_writes : ∀ (fuel : Nat) (req : Nat → Nat) (L : Nat → Link) (nv loc : Nat)
    (d : Nat → Nat), FibreDown d L nv → ∀ (s : OState), keyEq s.links L → s.n = nv →
    ∀ r t, validate_child_link_cores fuel req loc s = some (r, t) →
    ∀ j, t.links j = s.links j ∨ (j < nv ∧ d loc ≤ d ((L j).from_location))
  | 0, req, L, nv, loc, d, _, s, _, _, r, t, h => by
    rw [validate_child_link_cores] at h
    cases h
  | fuel + 1, req, L, nv, loc, d, hd, s, hk, hn, r, t, h => by
    subst hn
    rw [validate_child_link_cores] at h
    intro j
    have := validateLoop_writes _ L s.n loc d hd
      (fun u t htk htn c t' hr => (validate_spec fuel req L s.n u t htk htn).2 c t' hr)
      (fun u t htk htn c t' hr =>
        validate_writes fuel req L s.n u d hd t htk htn c t' hr)
      (List.range s.n) (req loc) s (fun j hj => List.mem_range.mp hj) hk rfl r t h j
    rcases this with hh | hh | hh
    · exact Or.inl hh
    · exact Or.inr ⟨hh.2.1, le_of_eq (congrArg d hh.2.2.2.symm)⟩
    · exact Or.inr ⟨hh.1, le_of_lt hh.2⟩

/-- Final `cores_used` values of the Fibre links leaving the visited location:
1 for an aggregated link, the child's recursively computed required cores for
a non-aggregated one.  The write is preserved to the end of the loop because
all later writes happen at other listed indices or strictly deeper. -/
theorem validateLoop_values (rec : Nat → OState → Option (Nat × OState))
    (rc : Nat → Option Nat) (L : Nat → Link) (nv loc : Nat) (d : Nat → Nat)
    (hd : FibreDown d L nv)
    (hrecK : ∀ u t, keyEq t.links L → t.n = nv →
      ∀ c t', rec u t = some (c, t') → keyEq t'.links L ∧ t'.n = nv)
    (hrecW : ∀ u t, keyEq t.links L → t.n = nv → ∀ c t', rec u t = some (c, t') →
      ∀ j, t'.links j = t.links j ∨ (j < nv ∧ d u ≤ d ((L j).from_location)))
    (hrecM : ∀ u t, keyEq t.links L → t.n = nv →
      Option.map Prod.fst (rec u t) = rc u) :
    ∀ (js : List Nat), js.Nodup → (∀ j ∈ js, j < nv) → ∀ (acc : Nat) (s : OState),
      keyEq s.links L → s.n = nv →
      ∀ r t, validateLoop rec loc js acc s = some (r, t) →
      ∀ i ∈ js, (L i).type = LinkType.Fibre → (L i).from_location = loc →
        ((L i).aggregated = true → (t.links i).cores_used = some 1) ∧
        ((L i).aggregated = false → ∃ c, rc ((L i).to_location) = some c ∧
          (t.links i).cores_used = some c)
  | [], _, _, acc, s, _, _, r, t, h, i, hi => absurd hi (List.not_mem_nil _)
  | i0 :: rest, hnd, hjs, acc, s, hk, hn, r, t, h, i, hi => by
    obtain ⟨hfrom, hto, htype, hcores, hagg⟩ := hk i0
    intro hityp hifrom
    rw [validateLoop] at h
    have hnd' : rest.Nodup := (List.nodup_cons.mp hnd).2
    have hi0nr : i0 ∉ rest := (List.nodup_cons.mp hnd).1
    have hjs' : ∀ j ∈ rest, j < nv := fun j hj => hjs j (List.mem_cons_of_mem _ hj)
    by_cases hcond : (s.links i0).type = LinkType.Fibre ∧ (s.links i0).from_location = loc
    · rw [if_pos hcond] at h
      have hinv : i0 < nv := hjs i0 (List.mem_cons_self _ _)
      by_cases ha : (s.links i0).aggregated
      · rw [if_pos ha] at h
        have hk1 : keyEq (setCoresUsed s i0 1).links L :=
          keyEq_trans (keyEq_setCoresUsed s i0 1) hk
        rcases List.mem_cons.mp hi with hii | hii
        · -- i is the head: the write of 1 survives the rest of the loop
          subst hii
          have haL : (L i).aggregated = true := hagg ▸ (by simpa using ha)
          refine ⟨fun _ => ?_, fun hfalse => absurd haL (by rw [hfalse]; simp)⟩
          have hfr := validateLoop_writes rec L nv loc d hd hrecK hrecW rest (acc + 0)
            (setCoresUsed s i 1) hjs' hk1 hn r t h i
          have hset : ((setCoresUsed s i 1).links i).cores_used = some 1 := by
            simp [setCoresUsed]
          rcases hfr with hfr | hfr | hfr
          · rw [hfr]; exact hset
          · exact absurd hfr.1 hi0nr
          · rw [hifrom] at hfr
            exact absurd hfr.2 (lt_irrefl _)
        · exact validateLoop_values rec rc L nv loc d hd hrecK hrecW hrecM rest hnd' hjs'
            (acc + 0) (setCoresUsed s i0 1) hk1 hn r t h i hii hityp hifrom
      · rw [if_neg ha] at h
        rcases hrc : rec (s.links i0).to_location s with _ | ⟨c, t'⟩
        · rw [hrc] at h
          cases h
        · rw [hrc] at h
          obtain ⟨hk', hn'⟩ := hrecK _ s hk hn c t' hrc
          set s2 := (if (s.links i0).cores < c then
              { setCoresUsed t' i0 c with warnings := (setCoresUsed t' i0 c).warnings ++
                  [Warning.capacityShortfall loc (s.links i0).to_location c
                    (s.links i0).cores] }
            else setCoresUsed t' i0 c) with hs2
          have hl2 : ∀ j, s2.links j = (setCoresUsed t' i0 c).links j := by
            intro j
            by_cases hlt : (s.links i0).cores < c
            · rw [hs2, if_pos hlt]
            · rw [hs2, if_neg hlt]
          have hk2 : keyEq s2.links L :=
            keyEq_trans (fun j => hl2 j ▸ (keyEq_trans (keyEq_setCoresUsed t' i0 c)
              (keyEq_refl _)) j) hk'
          have hn2 : s2.n = nv := by
            by_cases hlt : (s.links i0).cores < c
            · rw [hs2, if_pos hlt]; exact hn'
            · rw [hs2, if_neg hlt]; exact hn'
          rcases List.mem_cons.mp hi with hii | hii
          · -- i is the head: the write of the child value survives
            subst hii
            have haL : (L i).aggregated = false := by
              rw [← hagg]
              simpa using ha
            refine ⟨fun htrue => absurd haL (by rw [htrue]; simp), fun _ => ?_⟩
            have hmap := hrecM (s.links i).to_location s hk hn
            rw [hrc] at hmap
            refine ⟨c, by rw [← hto, ← hmap]; rfl, ?_⟩
            have hfr := validateLoop_writes rec L nv loc d hd hrecK hrecW rest (acc + c)
              s2 hjs' hk2 hn2 r t h i
            have hset : (s2.links i).cores_used = some c := by
              rw [hl2 i]
              simp [setCoresUsed]
            rcases hfr with hfr | hfr | hfr
            · rw [hfr]; exact hset
            · exact absurd hfr.1 hi0nr
            · rw [hifrom] at hfr
              exact absurd hfr.2 (lt_irrefl _)
          · exact validateLoop_values rec rc L nv loc d hd hrecK hrecW hrecM rest hnd' hjs'
              (acc + c) s2 hk2 hn2 r t h i hii hityp hifrom
    · rw [if_neg hcond] at h
      rcases List.mem_cons.mp hi with hii | hii
      · subst hii
        exact absurd ⟨htype.trans hityp, hfrom.trans hifrom⟩ hcond
      · exact validateLoop_values rec rc L nv loc d hd hrecK hrecW hrecM rest hnd' hjs'
          acc s hk hn r t h i hii hityp hifrom

/-- `cores_used` postcondition of `_validate_child_link_cores` for the Fibre
links leaving the visited location, on a store whose fibre links all descend. -/
theorem validate_cores_used (fuel : Nat) (req : Nat → Nat) (loc : Nat) (s : OState)
    (d : Nat → Nat) (hd : FibreDown d s.links s.n) (r : Nat) (t : OState)
    (h : validate_child_link_cores (fuel + 1) req loc s = some (r, t)) :
    ∀ i < s.n, (s.links i).type = LinkType.Fibre → (s.links i).from_location = loc →
      ((s.links i).aggregated = true → (t.links i).cores_used = some 1) ∧
      ((s.links i).aggregated = false → ∃ c,
        requiredCoresAmended fuel s.links s.n req ((s.links i).to_location) = some c ∧
        (t.links i).cores_used = some c) := by
  intro i hi hityp hifrom
  rw [validate_child_link_cores] at h
  exact validateLoop_values _ _ s.links s.n loc d hd
    (fun u t0 htk htn c t' hr => (validate_spec fuel req s.links s.n u t0 htk htn).2 c t' hr)
    (fun u t0 htk htn c t' hr =>
      validate_writes fuel req s.links s.n u d hd t0 htk htn c t' hr)
    (fun u t0 htk htn => (validate_spec fuel req s.links s.n u t0 htk htn).1)
    (List.range s.n) (List.nodup_range _) (fun j hj => List.mem_range.mp hj)
    (req loc) s (keyEq_refl _) rfl r t h i (List.mem_range.mpr hi) hityp hifrom

/-- C1 (amended): `_validate_child_link_cores(location)` returns
`location.cores_required` plus, for every Fibre link whose from-end is that
location, the child's recursively computed required cores when the link is
not aggregated and 0 — not 1 — when the link is aggregated, Copper links
contributing nothing to the sum; `cores_used` of each such link is set to the
child's value for a non-aggregated link and to 1 for an aggregated link (so
for an aggregated link `cores_used` differs from its contribution to the
sum).  The first part holds at every fuel; the second on any store whose
fibre links descend (a finite oriented tree). -/
theorem validate_child_link_cores_capacity :
    (∀ (fuel : Nat) (req : Nat → Nat) (loc : Nat) (s : OState),
      Option.map Prod.fst (validate_child_link_cores fuel req loc s) =
        requiredCoresAmended fuel s.links s.n req loc) ∧
    (∀ (fuel : Nat) (req : Nat → Nat) (loc : Nat) (s : OState) (d : Nat → Nat),
      FibreDown d s.links s.n →
      ∀ r t, validate_child_link_cores (fuel + 1) req loc s = some (r, t) →
      ∀ i < s.n, (s.links i).type = LinkType.Fibre → (s.links i).from_location = loc →
        ((s.links i).aggregated = true → (t.links i).cores_used = some 1) ∧
        ((s.links i).aggregated = false → ∃ c,
          requiredCoresAmended fuel s.links s.n req ((s.links i).to_location) = some c ∧
          (t.links i).cores_used = some c)) :=
  ⟨fun fuel req loc s => (validate_spec fuel req s.links s.n loc s (keyEq_refl _) rfl).1,
   fun fuel req loc s d hd r t h => validate_cores_used fuel req loc s d hd r t h⟩

/-- Unit requirement map: every location requires one core for itself. -/
def reqOne : Nat → Nat := fun _ => 1

/-- The concrete scenario of spec section 8 — Core = 0, A = 1, B = 2, C = 3;
links Core→A (2 cores), A→B (aggregated), A→C, already oriented. -/
def scenarioState : OState := initState
  [plainLink 0 1 LinkType.Fibre false 2,
   plainLink 1 2 LinkType.Fibre true 1,
   plainLink 1 3 LinkType.Fibre false 1]

/-- Depths of the scenario locations. -/
def scenarioDepth : Nat → Nat := fun v =>
  if v = 0 then 0 else if v = 1 then 1 else 2

/-- Witness for C1 on the spec's concrete scenario, validated at A = 1: the
aggregated link A→B gets `cores_used = 1` and the plain link A→C gets the
child's value 1. -/
theorem validate_child_link_cores_capacity_w :
    FibreDown scenarioDepth scenarioState.links scenarioState.n ∧
      Option.map Prod.fst (validate_child_link_cores 4 reqOne 1 scenarioState) =
        requiredCoresAmended 4 scenarioState.links scenarioState.n reqOne 1 ∧
      ∃ r t, validate_child_link_cores 4 reqOne 1 scenarioState = some (r, t) ∧
        (t.links 1).cores_used = some 1 ∧ (t.links 2).cores_used = some 1 := by
  have hd : FibreDown scenarioDepth scenarioState.links scenarioState.n := by decide
  refine ⟨hd, validate_child_link_cores_capacity.1 4 reqOne 1 scenarioState, ?_⟩
  have hs : (validate_child_link_cores 4 reqOne 1 scenarioState).isSome = true := rfl
  obtain ⟨⟨r, t⟩, hp⟩ := Option.isSome_iff_exists.mp hs
  refine ⟨r, t, hp, ?_, ?_⟩
  · exact (validate_child_link_cores_capacity.2 3 reqOne 1 scenarioState scenarioDepth hd
      r t hp 1 (by decide) rfl rfl).1 rfl
  · obtain ⟨c, hc, hcu⟩ := (validate_child_link_cores_capacity.2 3 reqOne 1 scenarioState
      scenarioDepth hd r t hp 2 (by decide) rfl rfl).2 rfl
    have : some c = some 1 := by
      rw [← hc]; rfl
    cases this
    exact hcu

/-- A root with a single aggregated fibre child link (C1 counterexample data). -/
def aggOnlyState : OState := initState [plainLink 0 1 LinkType.Fibre true 1]

/-- Counterexample to C1 as stated: with a single aggregated child link the
function returns just `cores_required = 1`, while the claim's recurrence (an
aggregated link contributing exactly 1) predicts 2. -/
theorem validate_child_link_cores_capacity_cex :
    Option.map Prod.fst (validate_child_link_cores 2 reqOne 0 aggOnlyState) = some 1 ∧
      requiredCoresClaim 2 aggOnlyState.links aggOnlyState.n reqOne 0 = some 2 ∧
      Option.map Prod.fst (validate_child_link_cores 2 reqOne 0 aggOnlyState) ≠
        requiredCoresClaim 2 aggOnlyState.links aggOnlyState.n reqOne 0 := by
  refine ⟨rfl, rfl, fun h => ?_⟩
  have h12 : (some 1 : Option Nat) = some 2 :=
    calc (some 1 : Option Nat)
        = Option.map Prod.fst (validate_child_link_cores 2 reqOne 0 aggOnlyState) := rfl
      _ = requiredCoresClaim 2 aggOnlyState.links aggOnlyState.n reqOne 0 := h
      _ = some 2 := rfl
  exact absurd h12 (by decide)

/-! ## The logical link coalescer: `_make_logical_link` (source lines 269-301)
and the coalescing pass of `generate_plan` (source lines 347-355) -/

/-- Modelled from the spec: `LogicalLink` of `buildmap.plugins.noc.data` is not
under `src/`.  Per spec section 3 it carries the end locations, the medium
(`none` until the first physical link is absorbed, as in
`LogicalLink(None, switch, None)`) and the ordered list of constituent
physical links; `total_length`, `couplers` and `loss()` are derived from
these and not modelled separately. -/
structure LogicalLink where
  from_location : Option Nat
  to_location : Nat
  type : Option LinkType
  physical_links : List Link
deriving DecidableEq, Repr

/-- The uplink search of `_make_logical_link`: the first link in list order
whose `to_location` is the given location (physical links are already
oriented, so `from_location` is the core end). -/
def findUplink (s : OState) (loc : Nat) : Option Nat :=
  (List.range s.n).find? fun i => (s.links i).to_location == loc

/-- `_make_logical_link(location, logical_link)`: absorb the uplink of the
location unless its medium differs from the accumulator's; keep extending
through Fibre links that are not aggregated.  Fuel models the unbounded
Python recursion (`none` = no return; on an oriented tree the walk climbs
strictly toward the root and enough fuel always exists). -/
def make_logical_link : Nat → OState → Nat → LogicalLink → Option LogicalLink
  | 0, _, _, _ => none
  | fuel + 1, s, loc, ll =>
    match findUplink s loc with
    | none => some ll
    | some i =>
      let link := s.links i
      if ll.type ≠ none ∧ ll.type ≠ some link.type then
        some ll
      else
        let ll2 : LogicalLink :=
          { ll with
            from_location := some link.from_location
            type := some link.type
            physical_links := ll.physical_links ++ [link] }
        if link.type = LinkType.Fibre ∧ link.aggregated = false then
          make_logical_link fuel s link.from_location ll2
        else
          some ll2

/-- The coalescing pass of `generate_plan` over the locations (in load order):
every non-root location gets `_make_logical_link` run on a fresh
`LogicalLink(None, switch, None)`; a logical link whose type was never set
warns as untraceable and is skipped. -/
def coalesceLoop (fuel : Nat) (s : OState) (root : Nat) :
    List Nat → Option (List LogicalLink × List Warning)
  | [] => some ([], [])
  | name :: rest =>
    if name = root then
      coalesceLoop fuel s root rest
    else
      match make_logical_link fuel s name
        { from_location := none, to_location := name, type := none,
          physical_links := [] } with
      | none => none
      | some ll =>
        match coalesceLoop fuel s root rest with
        | none => none
        | some (lls, ws) =>
          if ll.type = none then some (lls, Warning.untraceableUplink name :: ws)
          else some (ll :: lls, ws)

/-- The already-oriented chain of spec section 4.4: root 0, then locations
1..4, media Fibre, Copper, Fibre, Fibre away from the root (so
Fibre→Fibre→Copper→Fibre from the leaf 4 back to the root). -/
def chainState : OState := initState
  [plainLink 0 1 LinkType.Fibre false 1,
   plainLink 1 2 LinkType.Copper false 1,
   plainLink 2 3 LinkType.Fibre false 1,
   plainLink 3 4 LinkType.Fibre false 1]

/-- C3 (amended): on the Fibre-Fibre-Copper-Fibre chain the coalescing pass
produces exactly four logical links — one per non-root location — whose
segment lists break exactly at the medium changes: the leaf's logical link
2→4 spans the two fibre segments and stops at the copper boundary, 1→2 is
the copper segment, 0→1 the root-side fibre segment, and the fourth is the
intermediate location 3's own uplink 2→3. -/
theorem coalesce_chain :
    coalesceLoop 6 chainState 0 [0, 1, 2, 3, 4] = some
      ([{ from_location := some 0, to_location := 1, type := some LinkType.Fibre,
          physical_links := [plainLink 0 1 LinkType.Fibre false 1] },
        { from_location := some 1, to_location := 2, type := some LinkType.Copper,
          physical_links := [plainLink 1 2 LinkType.Copper false 1] },
        { from_location := some 2, to_location := 3, type := some LinkType.Fibre,
          physical_links := [plainLink 2 3 LinkType.Fibre false 1] },
        { from_location := some 2, to_location := 4, type := some LinkType.Fibre,
          physical_links := [plainLink 3 4 LinkType.Fibre false 1,
            plainLink 2 3 LinkType.Fibre false 1] }], []) := by
  decide

/-- Counterexample to C3 as stated: the pass yields four logical links on the
chain, not three. -/
theorem coalesce_chain_cex :
    (coalesceLoop 6 chainState 0 [0, 1, 2, 3, 4]).map (fun p => p.1.length) = some 4 ∧
      ¬ (coalesceLoop 6 chainState 0 [0, 1, 2, 3, 4]).map (fun p => p.1.length) = some 3 :=
  ⟨by decide, by decide⟩

/-! ## Rooted trees of links

A link set is a tree rooted at `root` when a depth function `d`, a parent map
`par` and a parent-link index map `pidx` witness the usual characterisation:
links join adjacent depth levels, each location is the deep end of at most
one link (its parent link, recorded by `pidx`/`par`), every deep-end chain
ascends to depth 0, and the only depth-0 endpoint is the root. -/

/-- The lower-depth (parent-side) endpoint of a link. -/
def topOf (d : Nat → Nat) (l : Link) : Nat :=
  if d l.from_location < d l.to_location then l.from_location else l.to_location

/-- The higher-depth (child-side) endpoint of a link. -/
def botOf (d : Nat → Nat) (l : Link) : Nat :=
  if d l.from_location < d l.to_location then l.to_location else l.from_location

/-- The downward-oriented version of a link: from parent end to child end. -/
def dnOf (d : Nat → Nat) (l : Link) : Link :=
  if d l.from_location < d l.to_location then l else l.swap

theorem dnOf_from (d : Nat → Nat) (l : Link) :
    (dnOf d l).from_location = topOf d l := by
  unfold dnOf topOf
  split <;> rfl

theorem dnOf_to (d : Nat → Nat) (l : Link) :
    (dnOf d l).to_location = botOf d l := by
  unfold dnOf botOf
  split <;> rfl

theorem dnOf_or (d : Nat → Nat) (l : Link) : dnOf d l = l ∨ dnOf d l = l.swap := by
  unfold dnOf
  split
  · exact Or.inl rfl
  · exact Or.inr rfl

/-- Either orientation of a link has the top and bot of the link as its two
endpoints, in one of the two orders. -/
theorem orient_endpoints (d : Nat → Nat) (l x : Link) (hx : x = l ∨ x = l.swap) :
    (x.from_location = topOf d l ∧ x.to_location = botOf d l) ∨
      (x.from_location = botOf d l ∧ x.to_location = topOf d l) := by
  unfold topOf botOf
  rcases hx with hx | hx <;> subst hx <;> split
  · exact Or.inl ⟨rfl, rfl⟩
  · exact Or.inr ⟨rfl, rfl⟩
  · exact Or.inr ⟨rfl, rfl⟩
  · exact Or.inl ⟨rfl, rfl⟩

/-- The witness data making a link store a tree rooted at `root`. -/
structure IsTree (L : Nat → Link) (n root : Nat) (d par pidx : Nat → Nat) : Prop where
  root_depth : d root = 0
  level : ∀ i, i < n → d (topOf d (L i)) + 1 = d (botOf d (L i))
  parent_link : ∀ i, i < n → pidx (botOf d (L i)) = i ∧ par (botOf d (L i)) = topOf d (L i)
  top_parent : ∀ i, i < n → d (topOf d (L i)) ≠ 0 →
    ∃ j, j < n ∧ botOf d (L j) = topOf d (L i)
  zero_root : ∀ i, i < n → d (topOf d (L i)) = 0 → topOf d (L i) = root

/-- A tree node: the deep end of some link, or the root itself. -/
def IsBR (L : Nat → Link) (n root : Nat) (d : Nat → Nat) (v : Nat) : Prop :=
  (∃ i, i < n ∧ botOf d (L i) = v) ∨ v = root

/-- `v` is an ancestor of (or equal to) `u` along the parent chain. -/
def Desc (L : Nat → Link) (n root : Nat) (d par : Nat → Nat) (v u : Nat) : Prop :=
  IsBR L n root d u ∧ ∃ k, k ≤ d u ∧ par^[k] u = v

section TreeLemmas

variable {L : Nat → Link} {n root : Nat} {d par pidx : Nat → Nat}

theorem IsTree.bot_depth_pos (ht : IsTree L n root d par pidx) :
    ∀ i, i < n → 0 < d (botOf d (L i)) := by
  intro i hi
  have := ht.level i hi
  omega

theorem IsTree.bot_ne_root (ht : IsTree L n root d par pidx) :
    ∀ i, i < n → botOf d (L i) ≠ root := by
  intro i hi h
  have := ht.bot_depth_pos i hi
  rw [h, ht.root_depth] at this
  exact lt_irrefl _ this

theorem IsTree.dzero (ht : IsTree L n root d par pidx) {v : Nat}
    (hv : IsBR L n root d v) (h0 : d v = 0) : v = root := by
  rcases hv with ⟨i, hi, hb⟩ | hv
  · have := ht.bot_depth_pos i hi
    rw [hb, h0] at this
    exact absurd this (lt_irrefl _)
  · exact hv

/-- One parent step from a non-root node: the depth drops by one and the
parent is again a node. -/
theorem IsTree.par_step (ht : IsTree L n root d par pidx) {v : Nat}
    (hv : ∃ i, i < n ∧ botOf d (L i) = v) :
    d (par v) + 1 = d v ∧ IsBR L n root d (par v) := by
  obtain ⟨i, hi, hb⟩ := hv
  have hpl := ht.parent_link i hi
  have hlev := ht.level i hi
  rw [hb] at hpl
  constructor
  · rw [hpl.2, ← hb]
    exact hlev
  · rw [hpl.2]
    by_cases h0 : d (topOf d (L i)) = 0
    · exact Or.inr (ht.zero_root i hi h0)
    · obtain ⟨j, hj, hbj⟩ := ht.top_parent i hi h0
      exact Or.inl ⟨j, hj, hbj⟩

/-- Along the parent chain from a node, each step is again a node and the
depth decreases by exactly the number of steps. -/
theorem IsTree.chain (ht : IsTree L n root d par pidx) :
    ∀ (k v : Nat), IsBR L n root d v → k ≤ d v →
    IsBR L n root d (par^[k] v) ∧ d (par^[k] v) = d v - k
  | 0, v, hv, _ => ⟨hv, rfl⟩
  | k + 1, v, hv, hk => by
    have hdpos : 0 < d v := lt_of_lt_of_le (Nat.succ_pos k) hk
    have hvb : ∃ i, i < n ∧ botOf d (L i) = v := by
      rcases hv with hv | hv
      · exact hv
      · rw [hv, ht.root_depth] at hdpos
        exact absurd hdpos (lt_irrefl _)
    obtain ⟨hdpar, hbrpar⟩ := ht.par_step hvb
    have hk' : k ≤ d (par v) := by omega
    have := ht.chain k (par v) hbrpar hk'
    rw [Function.iterate_succ_apply]
    exact ⟨this.1, by rw [this.2]; omega⟩

/-- Every node descends from the root. -/
theorem IsTree.root_anc (ht : IsTree L n root d par pidx) {v : Nat}
    (hv : IsBR L n root d v) :
    Desc L n root d par root v := by
  refine ⟨hv, d v, le_refl _, ?_⟩
  obtain ⟨hbr, hd⟩ := ht.chain (d v) v hv (le_refl _)
  exact ht.dzero hbr (by rw [hd]; omega)

theorem IsTree.desc_le (ht : IsTree L n root d par pidx) {v u : Nat}
    (h : Desc L n root d par v u) :
    d v ≤ d u ∧ par^[d u - d v] u = v := by
  obtain ⟨hbr, k, hk, hpk⟩ := h
  obtain ⟨_, hd⟩ := ht.chain k u hbr hk
  rw [hpk] at hd
  constructor
  · omega
  · have : d u - d v = k := by omega
    rw [this, hpk]

/-- Two ancestors of the same node at the same depth coincide. -/
theorem IsTree.anc_unique (ht : IsTree L n root d par pidx) {v v' u : Nat}
    (h : Desc L n root d par v u)
    (h' : Desc L n root d par v' u) (hd : d v = d v') : v = v' := by
  obtain ⟨_, hp⟩ := ht.desc_le h
  obtain ⟨_, hp'⟩ := ht.desc_le h'
  rw [← hp, ← hp', hd]

theorem IsTree.desc_trans (ht : IsTree L n root d par pidx) {v u w : Nat}
    (h1 : Desc L n root d par v u)
    (h2 : Desc L n root d par u w) : Desc L n root d par v w := by
  obtain ⟨hbru, k1, hk1, hp1⟩ := h1
  obtain ⟨hbrw, k2, hk2, hp2⟩ := h2
  refine ⟨hbrw, k1 + k2, ?_, ?_⟩
  · obtain ⟨_, hd2⟩ := ht.chain k2 w hbrw hk2
    rw [hp2] at hd2
    omega
  · rw [Function.iterate_add_apply, hp2, hp1]

theorem IsTree.desc_refl {v : Nat} (hv : IsBR L n root d v) :
    Desc L n root d par v v :=
  ⟨hv, 0, Nat.zero_le _, rfl⟩

/-- A link's deep end descends from its shallow end (its parent). -/
theorem IsTree.bot_desc_top (ht : IsTree L n root d par pidx) (i : Nat) (hi : i < n) :
    Desc L n root d par (topOf d (L i)) (botOf d (L i)) := by
  refine ⟨Or.inl ⟨i, hi, rfl⟩, 1, ?_, ?_⟩
  · have := ht.level i hi
    omega
  · exact (ht.parent_link i hi).2

/-- Splitting one step off a strict descent. -/
theorem IsTree.desc_step (ht : IsTree L n root d par pidx) {v u : Nat}
    (h : Desc L n root d par v u) (hne : u ≠ v)
    (hu : ∃ i, i < n ∧ botOf d (L i) = u) :
    Desc L n root d par v (par u) := by
  obtain ⟨hbr, k, hk, hpk⟩ := h
  cases k with
  | zero => exact absurd hpk hne
  | succ k =>
    obtain ⟨hdpar, hbrpar⟩ := ht.par_step hu
    refine ⟨hbrpar, k, by omega, ?_⟩
    rw [Function.iterate_succ_apply] at hpk
    exact hpk

theorem IsTree.desc_depth_lt (ht : IsTree L n root d par pidx) {v u : Nat}
    (h : Desc L n root d par v u) (hne : u ≠ v) :
    d v < d u := by
  obtain ⟨hle, hp⟩ := ht.desc_le h
  rcases Nat.lt_or_ge (d v) (d u) with hlt | hge
  · exact hlt
  · have hdd : d u - d v = 0 := by omega
    rw [hdd] at hp
    exact absurd hp hne

end TreeLemmas

/-- The child of `v` through which a strict descendant `u` hangs: the ancestor
of `u` at depth one below `v`. -/
def chTo (d par : Nat → Nat) (v u : Nat) : Nat :=
  par^[d u - (d v + 1)] u

section ChildLemmas

variable {L : Nat → Link} {n root : Nat} {d par pidx : Nat → Nat}

theorem IsTree.chTo_desc (ht : IsTree L n root d par pidx) {v u : Nat}
    (h : Desc L n root d par v u) (hne : u ≠ v) :
    Desc L n root d par (chTo d par v u) u := by
  have hlt : d v < d u := ht.desc_depth_lt h hne
  exact ⟨h.1, d u - (d v + 1), by omega, rfl⟩

theorem IsTree.chTo_depth (ht : IsTree L n root d par pidx) {v u : Nat}
    (h : Desc L n root d par v u) (hne : u ≠ v) :
    d (chTo d par v u) = d v + 1 := by
  have hlt : d v < d u := ht.desc_depth_lt h hne
  have := ht.chain (d u - (d v + 1)) u h.1 (by omega)
  unfold chTo
  rw [this.2]
  omega

theorem IsTree.chTo_isbr (ht : IsTree L n root d par pidx) {v u : Nat}
    (h : Desc L n root d par v u) (hne : u ≠ v) :
    IsBR L n root d (chTo d par v u) := by
  have hlt : d v < d u := ht.desc_depth_lt h hne
  exact (ht.chain (d u - (d v + 1)) u h.1 (by omega)).1

theorem IsTree.chTo_par (ht : IsTree L n root d par pidx) {v u : Nat}
    (h : Desc L n root d par v u) (hne : u ≠ v) :
    par (chTo d par v u) = v := by
  have hlt : d v < d u := ht.desc_depth_lt h hne
  obtain ⟨_, hp⟩ := ht.desc_le h
  have harith : d u - d v = (d u - (d v + 1)) + 1 := by omega
  rw [harith, Function.iterate_succ_apply'] at hp
  exact hp

theorem IsTree.desc_chTo (ht : IsTree L n root d par pidx) {v u : Nat}
    (h : Desc L n root d par v u) (hne : u ≠ v) :
    Desc L n root d par v (chTo d par v u) := by
  refine ⟨ht.chTo_isbr h hne, 1, ?_, ?_⟩
  · rw [ht.chTo_depth h hne]
    omega
  · rw [Function.iterate_one]
    exact ht.chTo_par h hne

/-- The child through which `u` hangs is a deep end of some link. -/
theorem IsTree.chTo_bot (ht : IsTree L n root d par pidx) {v u : Nat}
    (h : Desc L n root d par v u) (hne : u ≠ v) :
    ∃ i, i < n ∧ botOf d (L i) = chTo d par v u := by
  rcases ht.chTo_isbr h hne with hb | hroot
  · exact hb
  · have := ht.chTo_depth h hne
    rw [hroot, ht.root_depth] at this
    omega

/-- Any ancestor of `u` at depth `d v + 1` is the child through which `u`
hangs. -/
theorem IsTree.chTo_eq (ht : IsTree L n root d par pidx) {v u c : Nat}
    (h : Desc L n root d par v u) (hne : u ≠ v)
    (hc : Desc L n root d par c u) (hdc : d c = d v + 1) :
    chTo d par v u = c :=
  ht.anc_unique (ht.chTo_desc h hne) hc ((ht.chTo_depth h hne).trans hdc.symm)

/-- The parent-link index of a deep end recovers it. -/
theorem IsTree.pidx_bot (ht : IsTree L n root d par pidx) {c : Nat}
    (hc : ∃ i, i < n ∧ botOf d (L i) = c) :
    pidx c < n ∧ botOf d (L (pidx c)) = c := by
  obtain ⟨i, hi, hb⟩ := hc
  have := (ht.parent_link i hi).1
  rw [hb] at this
  rw [this]
  exact ⟨hi, hb⟩

end ChildLemmas

/-! ## Orientation on a tree: the main invariant -/

/-- Precondition of the orientation recursion at `v`: the link skeleton is the
tree's, nothing in `v`'s subtree has been visited, no link strictly inside the
subtree is processed, and any parent link of `v` is already processed and
oriented downward (true of the link just followed by the caller). -/
structure OrientPre (L : Nat → Link) (n root : Nat) (d par : Nat → Nat)
    (v : Nat) (s : OState) : Prop where
  n_eq : s.n = n
  skel : ∀ i, i < n → s.links i = L i ∨ s.links i = (L i).swap
  node : IsBR L n root d v
  unvisited : ∀ u, Desc L n root d par v u → u ∉ s.processedLocations
  sub_unprocessed : ∀ i, i < n → Desc L n root d par v (botOf d (L i)) →
    botOf d (L i) ≠ v → i ∉ s.processedLinks
  parent_done : ∀ i, i < n → botOf d (L i) = v →
    i ∈ s.processedLinks ∧ s.links i = dnOf d (L i)

/-- Postcondition of the orientation recursion at `v`: exactly the subtree of
`v` has been visited, every link strictly inside it is oriented downward and
processed, everything else (including the warnings) is untouched. -/
structure OrientPost (L : Nat → Link) (n root : Nat) (d par : Nat → Nat)
    (v : Nat) (s s' : OState) : Prop where
  n_eq : s'.n = n
  skel : ∀ i, i < n → s'.links i = L i ∨ s'.links i = (L i).swap
  locs : ∀ u, u ∈ s'.processedLocations ↔
    Desc L n root d par v u ∨ u ∈ s.processedLocations
  sub_done : ∀ i, i < n → Desc L n root d par v (botOf d (L i)) →
    botOf d (L i) ≠ v → s'.links i = dnOf d (L i) ∧ i ∈ s'.processedLinks
  frame : ∀ i, i < n → ¬ (Desc L n root d par v (botOf d (L i)) ∧ botOf d (L i) ≠ v) →
    s'.links i = s.links i ∧ (i ∈ s'.processedLinks ↔ i ∈ s.processedLinks)
  warns : s'.warnings = s.warnings

/-- Invariant of the processing loop at `v` with remaining link indices `js`:
subtrees hanging off children whose parent link was already handled are fully
oriented; the others are untouched except that all child links of `v` are
already swapped downward by the first pass. -/
structure OrientInv (L : Nat → Link) (n root : Nat) (d par pidx : Nat → Nat)
    (v : Nat) (s : OState) (js : List Nat) (t : OState) : Prop where
  n_eq : t.n = n
  skel : ∀ i, i < n → t.links i = L i ∨ t.links i = (L i).swap
  locs : ∀ u, u ∈ t.processedLocations ↔
    u ∈ s.processedLocations ∨ u = v ∨
      (Desc L n root d par v u ∧ u ≠ v ∧ pidx (chTo d par v u) ∉ js)
  parent_done : ∀ i, i < n → botOf d (L i) = v →
    i ∈ t.processedLinks ∧ t.links i = dnOf d (L i)
  sub_done : ∀ i, i < n → Desc L n root d par v (botOf d (L i)) → botOf d (L i) ≠ v →
    pidx (chTo d par v (botOf d (L i))) ∉ js →
    t.links i = dnOf d (L i) ∧ i ∈ t.processedLinks
  sub_pending : ∀ i, i < n → Desc L n root d par v (botOf d (L i)) → botOf d (L i) ≠ v →
    pidx (chTo d par v (botOf d (L i))) ∈ js →
    i ∉ t.processedLinks ∧
      t.links i = (if d (botOf d (L i)) = d v + 1 then dnOf d (L i) else s.links i)
  out_frame : ∀ i, i < n → ¬ Desc L n root d par v (botOf d (L i)) →
    t.links i = s.links i ∧ (i ∈ t.processedLinks ↔ i ∈ s.processedLinks)
  warns : t.warnings = s.warnings

section OrientProof

variable {L : Nat → Link} {n root : Nat} {d par pidx : Nat → Nat}

theorem IsTree.top_ne_bot (ht : IsTree L n root d par pidx) {i : Nat} (hi : i < n) :
    topOf d (L i) ≠ botOf d (L i) := by
  intro h
  have := ht.level i hi
  rw [h] at this
  omega

/-- A link whose deep end is a child of `v` has `v` as its shallow end. -/
theorem IsTree.child_top (ht : IsTree L n root d par pidx) {v i : Nat} (hi : i < n)
    (hdesc : Desc L n root d par v (botOf d (L i)))
    (hdep : d (botOf d (L i)) = d v + 1) : topOf d (L i) = v := by
  have hpl := (ht.parent_link i hi).2
  obtain ⟨_, hp⟩ := ht.desc_le hdesc
  have h1 : d (botOf d (L i)) - d v = 1 := by omega
  rw [h1, Function.iterate_one] at hp
  rw [hpl] at hp
  exact hp

/-- Any orientation of a link is the downward one or its swap. -/
theorem orient_dichotomy {q : Nat → Nat} {x l : Link} (hx : x = l ∨ x = l.swap) :
    x = dnOf q l ∨ x = (dnOf q l).swap := by
  rcases dnOf_or q l with hd | hd <;> rcases hx with hx | hx
  · exact Or.inl (hx.trans hd.symm)
  · exact Or.inr (by rw [hx, hd])
  · exact Or.inr (by rw [hx, hd, Link.swap_swap])
  · exact Or.inl (hx.trans hd.symm)

theorem visitState_n (v : Nat) (s : OState) : (visitState v s).n = s.n := rfl

theorem visitState_locs (v : Nat) (s : OState) :
    (visitState v s).processedLocations = v :: s.processedLocations := rfl

theorem visitState_plinks (v : Nat) (s : OState) :
    (visitState v s).processedLinks = s.processedLinks := rfl

theorem visitState_warns (v : Nat) (s : OState) :
    (visitState v s).warnings = s.warnings := rfl

theorem visitState_links (v : Nat) (s : OState) (i : Nat) : (visitState v s).links i =
    if i < s.n ∧ (s.links i).to_location = v ∧ i ∉ s.processedLinks then (s.links i).swap
    else s.links i := rfl

/-- Entering the loop at `v`: marking `v` visited and swapping its unprocessed
incoming links establishes the loop invariant with all link indices pending. -/
theorem orient_entry (ht : IsTree L n root d par pidx) {v : Nat} {s : OState}
    (hpre : OrientPre L n root d par v s) :
    OrientInv L n root d par pidx v s (List.range n) (visitState v s) := by
  have hvd : Desc L n root d par v v := IsTree.desc_refl hpre.node
  have hpidx_mem : ∀ u, Desc L n root d par v u → u ≠ v →
      pidx (chTo d par v u) ∈ List.range n := by
    intro u hdesc hne
    exact List.mem_range.mpr (ht.pidx_bot (ht.chTo_bot hdesc hne)).1
  refine ⟨?_, ?_, ?_, ?_, ?_, ?_, ?_, ?_⟩
  · rw [visitState_n, hpre.n_eq]
  · intro i hi
    rw [visitState_links]
    by_cases hcond : i < s.n ∧ (s.links i).to_location = v ∧ i ∉ s.processedLinks
    · rw [if_pos hcond]
      rcases hpre.skel i hi with h | h
      · exact Or.inr (congrArg Link.swap h)
      · exact Or.inl (by rw [h, Link.swap_swap])
    · rw [if_neg hcond]
      exact hpre.skel i hi
  · intro u
    rw [visitState_locs]
    constructor
    · intro hu
      rcases List.mem_cons.mp hu with hu | hu
      · exact Or.inr (Or.inl hu)
      · exact Or.inl hu
    · intro hu
      rcases hu with hu | hu | ⟨hdesc, hne, hnotin⟩
      · exact List.mem_cons_of_mem _ hu
      · exact hu ▸ List.mem_cons_self _ _
      · exact absurd (hpidx_mem u hdesc hne) hnotin
  · intro i hi hb
    obtain ⟨hproc, hdn⟩ := hpre.parent_done i hi hb
    refine ⟨hproc, ?_⟩
    rw [visitState_links, if_neg (fun hcond => hcond.2.2 hproc)]
    exact hdn
  · intro i hi hdesc hne hnotin
    exact absurd (hpidx_mem _ hdesc hne) hnotin
  · intro i hi hdesc hne _
    have hnproc : i ∉ s.processedLinks := hpre.sub_unprocessed i hi hdesc hne
    refine ⟨hnproc, ?_⟩
    have hdvlt : d v < d (botOf d (L i)) := ht.desc_depth_lt hdesc hne
    by_cases hchild : d (botOf d (L i)) = d v + 1
    · rw [if_pos hchild]
      have htopv : topOf d (L i) = v := ht.child_top hi hdesc hchild
      rcases orient_dichotomy (q := d) (hpre.skel i hi) with hx | hx
      · rw [visitState_links, if_neg ?_]
        · exact hx
        · intro hcond
          apply hne
          rw [← hcond.2.1, hx, dnOf_to]
      · rw [visitState_links, if_pos ?_]
        · rw [hx, Link.swap_swap]
        · refine ⟨hpre.n_eq ▸ hi, ?_, hnproc⟩
          rw [hx, Link.swap_to, dnOf_from, htopv]
    · rw [if_neg hchild]
      have htopd : d (topOf d (L i)) + 1 = d (botOf d (L i)) := ht.level i hi
      rw [visitState_links, if_neg ?_]
      intro hcond
      have hto := hcond.2.1
      rcases orient_dichotomy (q := d) (hpre.skel i hi) with hx | hx
      · rw [hx, dnOf_to] at hto
        exact hne hto
      · rw [hx, Link.swap_to, dnOf_from] at hto
        have : d (topOf d (L i)) = d v := congrArg d hto
        omega
  · intro i hi hnd
    have hto_ne : (s.links i).to_location ≠ v := by
      intro hto
      rcases orient_dichotomy (q := d) (hpre.skel i hi) with hx | hx
      · rw [hx, dnOf_to] at hto
        exact hnd (hto ▸ hvd)
      · rw [hx, Link.swap_to, dnOf_from] at hto
        exact hnd (hto ▸ ht.bot_desc_top i hi)
    constructor
    · rw [visitState_links, if_neg (fun hcond => hto_ne hcond.2.1)]
    · rw [visitState_plinks]
  · rw [visitState_warns]

/-- When the head index is not the parent link of a child of `v`, dropping it
from the pending list preserves the loop invariant. -/
theorem orient_inv_transfer (ht : IsTree L n root d par pidx) {v : Nat} {s : OState}
    {j : Nat} {rest : List Nat} {t : OState} (_hj : j < n)
    (hnotchild : ¬ (Desc L n root d par v (botOf d (L j)) ∧ botOf d (L j) ≠ v ∧
      d (botOf d (L j)) = d v + 1))
    (hinv : OrientInv L n root d par pidx v s (j :: rest) t) :
    OrientInv L n root d par pidx v s rest t := by
  have hne_j : ∀ u, Desc L n root d par v u → u ≠ v → pidx (chTo d par v u) ≠ j := by
    intro u hdesc hne heq
    have hcb := ht.chTo_bot hdesc hne
    have hpb := ht.pidx_bot hcb
    rw [heq] at hpb
    apply hnotchild
    refine ⟨hpb.2 ▸ ht.desc_chTo hdesc hne, ?_, hpb.2 ▸ ht.chTo_depth hdesc hne⟩
    intro hbv
    have := ht.chTo_depth hdesc hne
    rw [← hpb.2, hbv] at this
    omega
  have hmem_iff : ∀ u, Desc L n root d par v u → u ≠ v →
      (pidx (chTo d par v u) ∉ (j :: rest) ↔ pidx (chTo d par v u) ∉ rest) := by
    intro u hdesc hne
    constructor
    · intro h hmem
      exact h (List.mem_cons_of_mem _ hmem)
    · intro h hmem
      rcases List.mem_cons.mp hmem with hh | hh
      · exact hne_j u hdesc hne hh
      · exact h hh
  refine ⟨hinv.n_eq, hinv.skel, ?_, hinv.parent_done, ?_, ?_, hinv.out_frame, hinv.warns⟩
  · intro u
    rw [hinv.locs u]
    constructor
    · rintro (h | h | ⟨h1, h2, h3⟩)
      · exact Or.inl h
      · exact Or.inr (Or.inl h)
      · exact Or.inr (Or.inr ⟨h1, h2, (hmem_iff u h1 h2).mp h3⟩)
    · rintro (h | h | ⟨h1, h2, h3⟩)
      · exact Or.inl h
      · exact Or.inr (Or.inl h)
      · exact Or.inr (Or.inr ⟨h1, h2, (hmem_iff u h1 h2).mpr h3⟩)
  · intro i hi hdesc hne hnotin
    exact hinv.sub_done i hi hdesc hne ((hmem_iff _ hdesc hne).mpr hnotin)
  · intro i hi hdesc hne hmem
    refine hinv.sub_pending i hi hdesc hne (List.mem_cons_of_mem _ hmem)

/-- One full pass of the processing loop at `v` finishes the invariant. -/
theorem orient_loop (ht : IsTree L n root d par pidx) (fuel : Nat) {v : Nat} {s : OState}
    (hpre : OrientPre L n root d par v s)
    (hfuel : ∀ u, Desc L n root d par v u → d u < d v + (fuel + 1))
    (hrec : ∀ c t, OrientPre L n root d par c t →
      (∀ u, Desc L n root d par c u → d u < d c + fuel) →
      OrientPost L n root d par c t (orderLinks fuel c t)) :
    ∀ (js : List Nat), js.Nodup → (∀ j ∈ js, j < n) →
    ∀ (t : OState), OrientInv L n root d par pidx v s js t →
      OrientInv L n root d par pidx v s [] (orderLoop (orderLinks fuel) v js t)
  | [], _, _, t, hinv => hinv
  | j :: rest, hnd, hjs, t, hinv => by
    have hj : j < n := hjs j (List.mem_cons_self _ _)
    have hjr : j ∉ rest := (List.nodup_cons.mp hnd).1
    have hnd' : rest.Nodup := (List.nodup_cons.mp hnd).2
    have hjs' : ∀ i ∈ rest, i < n := fun i hi => hjs i (List.mem_cons_of_mem _ hi)
    have hlev := ht.level j hj
    have hvd : Desc L n root d par v v := IsTree.desc_refl hpre.node
    by_cases hdescb : Desc L n root d par v (botOf d (L j))
    · by_cases hbv : botOf d (L j) = v
      · -- the parent link of v itself: already processed and downward, skipped
        have hpd := hinv.parent_done j hj hbv
        have hskip : (t.links j).from_location ≠ v := by
          rw [hpd.2, dnOf_from]
          intro hh
          rw [hh, hbv] at hlev
          omega
        rw [orderLoop, if_neg hskip]
        refine orient_loop ht fuel hpre hfuel hrec rest hnd' hjs' t
          (orient_inv_transfer ht hj (fun hc => hc.2.1 hbv) hinv)
      · have hdlt : d v < d (botOf d (L j)) := ht.desc_depth_lt hdescb hbv
        by_cases hchild : d (botOf d (L j)) = d v + 1
        · -- a child link of v: process it and recurse into the subtree
          have hpidxb : pidx (botOf d (L j)) = j := (ht.parent_link j hj).1
          have hlj : t.links j = dnOf d (L j) := by
            have := (hinv.sub_pending j hj hdescb hbv ?_).2
            · rw [this, if_pos hchild]
            · rw [ht.chTo_eq hdescb hbv (IsTree.desc_refl (Or.inl ⟨j, hj, rfl⟩)) hchild,
                hpidxb]
              exact List.mem_cons_self _ _
          have hjnp : j ∉ t.processedLinks := by
            refine (hinv.sub_pending j hj hdescb hbv ?_).1
            rw [ht.chTo_eq hdescb hbv (IsTree.desc_refl (Or.inl ⟨j, hj, rfl⟩)) hchild,
              hpidxb]
            exact List.mem_cons_self _ _
          have htopv : topOf d (L j) = v := ht.child_top hj hdescb hchild
          have hcond : (t.links j).from_location = v := by
            rw [hlj, dnOf_from, htopv]
          rw [orderLoop, if_pos hcond]
          show OrientInv L n root d par pidx v s []
            (orderLoop (orderLinks fuel) v rest
              (orderLinks fuel ((t.links j).to_location)
                { t with processedLinks := j :: t.processedLinks }))
          rw [hlj, dnOf_to]
          have hbrb : IsBR L n root d (botOf d (L j)) := Or.inl ⟨j, hj, rfl⟩
          have hdesc_trans : ∀ u, Desc L n root d par (botOf d (L j)) u →
              Desc L n root d par v u := fun u h => ht.desc_trans hdescb h
          have hune : ∀ u, Desc L n root d par (botOf d (L j)) u → u ≠ v := by
            intro u h heq
            have h1 := (ht.desc_le h).1
            rw [heq] at h1
            omega
          have hchTo_eq_b : ∀ u, Desc L n root d par (botOf d (L j)) u →
              chTo d par v u = botOf d (L j) := fun u h =>
            ht.chTo_eq (hdesc_trans u h) (hune u h) h hchild
          have hpre' : OrientPre L n root d par (botOf d (L j))
              { t with processedLinks := j :: t.processedLinks } := by
            refine ⟨hinv.n_eq, hinv.skel, hbrb, ?_, ?_, ?_⟩
            · intro u hu hin
              rcases (hinv.locs u).mp hin with h | h | ⟨h1, h2, h3⟩
              · exact hpre.unvisited u (hdesc_trans u hu) h
              · exact hune u hu h
              · exact h3 (by rw [hchTo_eq_b u hu, hpidxb]; exact List.mem_cons_self _ _)
            · intro i hi hdi hnei hin
              have hpend := hinv.sub_pending i hi (hdesc_trans _ hdi) (hune _ hdi)
                (by rw [hchTo_eq_b _ hdi, hpidxb]; exact List.mem_cons_self _ _)
              rcases List.mem_cons.mp hin with hij | hin'
              · exact hnei (by rw [hij])
              · exact hpend.1 hin'
            · intro i hi hbi
              have h1 := (ht.parent_link i hi).1
              rw [hbi, hpidxb] at h1
              subst h1
              exact ⟨List.mem_cons_self _ _, hlj⟩
          have hfuel' : ∀ u, Desc L n root d par (botOf d (L j)) u →
              d u < d (botOf d (L j)) + fuel := by
            intro u h
            have h1 := hfuel u (hdesc_trans u h)
            omega
          have hpost := hrec (botOf d (L j)) _ hpre' hfuel'
          have hinv2 : OrientInv L n root d par pidx v s rest
              (orderLinks fuel (botOf d (L j))
                { t with processedLinks := j :: t.processedLinks }) := by
            refine ⟨hpost.n_eq, hpost.skel, ?_, ?_, ?_, ?_, ?_, ?_⟩
            · intro u
              rw [hpost.locs u]
              constructor
              · rintro (h | h)
                · refine Or.inr (Or.inr ⟨hdesc_trans u h, hune u h, ?_⟩)
                  rw [hchTo_eq_b u h, hpidxb]
                  exact hjr
                · rcases (hinv.locs u).mp h with h' | h' | ⟨h1, h2, h3⟩
                  · exact Or.inl h'
                  · exact Or.inr (Or.inl h')
                  · exact Or.inr (Or.inr ⟨h1, h2, fun hm => h3 (List.mem_cons_of_mem _ hm)⟩)
              · rintro (h | h | ⟨h1, h2, h3⟩)
                · exact Or.inr ((hinv.locs u).mpr (Or.inl h))
                · exact Or.inr ((hinv.locs u).mpr (Or.inr (Or.inl h)))
                · by_cases heqj : pidx (chTo d par v u) = j
                  · have hpb := ht.pidx_bot (ht.chTo_bot h1 h2)
                    rw [heqj] at hpb
                    refine Or.inl ?_
                    rw [hpb.2]
                    exact ht.chTo_desc h1 h2
                  · refine Or.inr ((hinv.locs u).mpr (Or.inr (Or.inr ⟨h1, h2, ?_⟩)))
                    intro hm
                    rcases List.mem_cons.mp hm with hm' | hm'
                    · exact heqj hm'
                    · exact h3 hm'
            · intro i hi hbi
              have hold := hinv.parent_done i hi hbi
              have hnd2 : ¬ (Desc L n root d par (botOf d (L j)) (botOf d (L i)) ∧
                  botOf d (L i) ≠ botOf d (L j)) := by
                rintro ⟨hd2, _⟩
                have h1 := (ht.desc_le hd2).1
                rw [hbi] at h1
                omega
              have hfr := hpost.frame i hi hnd2
              refine ⟨(hfr.2).mpr (List.mem_cons_of_mem _ hold.1), ?_⟩
              rw [hfr.1]
              exact hold.2
            · intro i hi hdi hnei hnotin
              by_cases heqj : pidx (chTo d par v (botOf d (L i))) = j
              · have hpb := ht.pidx_bot (ht.chTo_bot hdi hnei)
                rw [heqj] at hpb
                have hdbi : Desc L n root d par (botOf d (L j)) (botOf d (L i)) := by
                  rw [hpb.2]
                  exact ht.chTo_desc hdi hnei
                by_cases hbij : botOf d (L i) = botOf d (L j)
                · have h1 := (ht.parent_link i hi).1
                  rw [hbij, hpidxb] at h1
                  subst h1
                  have hfr := hpost.frame j hj (fun hc => hc.2 rfl)
                  refine ⟨?_, (hfr.2).mpr (List.mem_cons_self _ _)⟩
                  rw [hfr.1]
                  exact hlj
                · exact hpost.sub_done i hi hdbi hbij
              · have hnotin' : pidx (chTo d par v (botOf d (L i))) ∉ (j :: rest) := by
                  intro hm
                  rcases List.mem_cons.mp hm with hm' | hm'
                  · exact heqj hm'
                  · exact hnotin hm'
                have hold := hinv.sub_done i hi hdi hnei hnotin'
                have hnd2 : ¬ (Desc L n root d par (botOf d (L j)) (botOf d (L i)) ∧
                    botOf d (L i) ≠ botOf d (L j)) := by
                  rintro ⟨hd2, hne2⟩
                  exact heqj (by rw [ht.chTo_eq hdi hnei hd2 hchild, hpidxb])
                have hfr := hpost.frame i hi hnd2
                refine ⟨?_, (hfr.2).mpr (List.mem_cons_of_mem _ hold.2)⟩
                rw [hfr.1]
                exact hold.1
            · intro i hi hdi hnei hmem
              have hneqj : pidx (chTo d par v (botOf d (L i))) ≠ j := by
                intro heq
                exact hjr (heq ▸ hmem)
              have hold := hinv.sub_pending i hi hdi hnei (List.mem_cons_of_mem _ hmem)
              have hnd2 : ¬ (Desc L n root d par (botOf d (L j)) (botOf d (L i)) ∧
                  botOf d (L i) ≠ botOf d (L j)) := by
                rintro ⟨hd2, hne2⟩
                exact hneqj (by rw [ht.chTo_eq hdi hnei hd2 hchild, hpidxb])
              have hij : i ≠ j := by
                intro heq
                apply hneqj
                have hdepi : d (botOf d (L i)) = d v + 1 := by rw [heq]; exact hchild
                rw [ht.chTo_eq hdi hnei (IsTree.desc_refl (Or.inl ⟨i, hi, rfl⟩)) hdepi,
                  (ht.parent_link i hi).1]
                exact heq
              have hfr := hpost.frame i hi hnd2
              refine ⟨?_, ?_⟩
              · intro hin
                rcases List.mem_cons.mp ((hfr.2).mp hin) with h | h
                · exact hij h
                · exact hold.1 h
              · rw [hfr.1]
                exact hold.2
            · intro i hi hndi
              have hnd2 : ¬ (Desc L n root d par (botOf d (L j)) (botOf d (L i)) ∧
                  botOf d (L i) ≠ botOf d (L j)) :=
                fun hc => hndi (hdesc_trans _ hc.1)
              have hfr := hpost.frame i hi hnd2
              have hold := hinv.out_frame i hi hndi
              have hij : i ≠ j := by
                intro heq
                exact hndi (by rw [heq]; exact hdescb)
              refine ⟨by rw [hfr.1]; exact hold.1, ?_⟩
              constructor
              · intro hin
                rcases List.mem_cons.mp ((hfr.2).mp hin) with h | h
                · exact absurd h hij
                · exact hold.2.mp h
              · intro hin
                exact (hfr.2).mpr (List.mem_cons_of_mem _ (hold.2.mpr hin))
            · rw [hpost.warns]
              exact hinv.warns
          exact orient_loop ht fuel hpre hfuel hrec rest hnd' hjs' _ hinv2
        · -- a link strictly inside a child subtree: skipped here
          have hskip : (t.links j).from_location ≠ v := by
            by_cases hdone : pidx (chTo d par v (botOf d (L j))) ∈ (j :: rest)
            · have := (hinv.sub_pending j hj hdescb hbv hdone).2
              rw [if_neg hchild] at this
              rw [this]
              rcases orient_dichotomy (q := d) (hpre.skel j hj) with hx | hx
              · rw [hx, dnOf_from]
                intro hh
                have := congrArg d hh
                omega
              · rw [hx, Link.swap_from, dnOf_to]
                intro hh
                have := congrArg d hh
                omega
            · have := (hinv.sub_done j hj hdescb hbv hdone).1
              rw [this, dnOf_from]
              intro hh
              have := congrArg d hh
              omega
          rw [orderLoop, if_neg hskip]
          refine orient_loop ht fuel hpre hfuel hrec rest hnd' hjs' t
            (orient_inv_transfer ht hj (fun hc => hchild hc.2.2) hinv)
    · -- a link outside the subtree of v: untouched and skipped
      have hskip : (t.links j).from_location ≠ v := by
        have := (hinv.out_frame j hj hdescb).1
        rw [this]
        rcases orient_dichotomy (q := d) (hpre.skel j hj) with hx | hx
        · rw [hx, dnOf_from]
          intro hh
          exact hdescb (hh ▸ ht.bot_desc_top j hj)
        · rw [hx, Link.swap_from, dnOf_to]
          intro hh
          exact hdescb (hh ▸ hvd)
      rw [orderLoop, if_neg hskip]
      refine orient_loop ht fuel hpre hfuel hrec rest hnd' hjs' t
        (orient_inv_transfer ht hj (fun hc => hdescb hc.1) hinv)

/-- The exhausted loop invariant is the recursion's postcondition. -/
theorem orient_inv_to_post (_ht : IsTree L n root d par pidx) {v : Nat} {s t : OState}
    (hpre : OrientPre L n root d par v s)
    (hinv : OrientInv L n root d par pidx v s [] t) :
    OrientPost L n root d par v s t := by
  refine ⟨hinv.n_eq, hinv.skel, ?_, ?_, ?_, hinv.warns⟩
  · intro u
    rw [hinv.locs u]
    constructor
    · rintro (h | h | ⟨h1, _, _⟩)
      · exact Or.inr h
      · refine Or.inl ?_
        rw [h]
        exact IsTree.desc_refl hpre.node
      · exact Or.inl h1
    · rintro (h | h)
      · by_cases hv : u = v
        · exact Or.inr (Or.inl hv)
        · exact Or.inr (Or.inr ⟨h, hv, List.not_mem_nil _⟩)
      · exact Or.inl h
  · intro i hi hdesc hne
    exact hinv.sub_done i hi hdesc hne (List.not_mem_nil _)
  · intro i hi hnot
    by_cases hbv : botOf d (L i) = v
    · have hold := hpre.parent_done i hi hbv
      have hnew := hinv.parent_done i hi hbv
      exact ⟨hnew.2.trans hold.2.symm, ⟨fun _ => hold.1, fun _ => hnew.1⟩⟩
    · exact hinv.out_frame i hi (fun h => hnot ⟨h, hbv⟩)

/-- Main orientation theorem: on a tree, `order_links_from_location` at a node
(with its parent link already processed, which is vacuous at the root) visits
exactly the node's subtree, orients every link strictly inside it downward
and marks it processed, and touches nothing else — in particular it appends
no warnings. -/
theorem orient_main (ht : IsTree L n root d par pidx) :
    ∀ (fuel v : Nat) (s : OState), OrientPre L n root d par v s →
      (∀ u, Desc L n root d par v u → d u < d v + fuel) →
      OrientPost L n root d par v s (orderLinks fuel v s)
  | 0, v, s, hpre, hfuel => by
    exact absurd (hfuel v (IsTree.desc_refl hpre.node)) (by omega)
  | fuel + 1, v, s, hpre, hfuel => by
    have hguard : v ∉ s.processedLocations :=
      hpre.unvisited v (IsTree.desc_refl hpre.node)
    rw [orderLinks_succ fuel v s hguard, visitState_n, hpre.n_eq]
    exact orient_inv_to_post ht hpre
      (orient_loop ht fuel hpre hfuel
        (fun c t hp hf => orient_main ht fuel c t hp hf)
        (List.range n) (List.nodup_range _) (fun j hj => List.mem_range.mp hj)
        _ (orient_entry ht hpre))

/-- The depth function of a tree witness measures exactly the parent-chain
distance to the root: the chain from a node reaches the root at step `d u`
and at no earlier step, so `d` is the tree distance to the root. -/
theorem IsTree.depth_is_distance (ht : IsTree L n root d par pidx) {u : Nat}
    (hu : IsBR L n root d u) :
    par^[d u] u = root ∧ ∀ k, k < d u → par^[k] u ≠ root := by
  constructor
  · have h := (ht.desc_le (ht.root_anc hu)).2
    rw [ht.root_depth, Nat.sub_zero] at h
    exact h
  · intro k hk heq
    have := (ht.chain k u hu (le_of_lt hk)).2
    rw [heq, ht.root_depth] at this
    omega

/-- Both tree endpoints of a link are endpoint locations of the state. -/
theorem top_bot_mem_locSet {s : OState} (hn : s.n = n)
    (hskel : ∀ i, i < n → s.links i = L i ∨ s.links i = (L i).swap)
    (i : Nat) (hi : i < n) :
    topOf d (L i) ∈ locSet s ∧ botOf d (L i) ∈ locSet s := by
  have hfrom := mem_locSet_from (s := s) (i := i) (by omega)
  have hto := mem_locSet_to (s := s) (i := i) (by omega)
  rcases orient_endpoints d (L i) (s.links i) (hskel i hi) with ⟨h1, h2⟩ | ⟨h1, h2⟩
  · exact ⟨h1 ▸ hfrom, h2 ▸ hto⟩
  · exact ⟨h2 ▸ hto, h1 ▸ hfrom⟩

/-- The depth of any node is at most the number of endpoint locations: the
parent chain visits distinct locations. -/
theorem desc_card_bound (ht : IsTree L n root d par pidx) {s : OState} (hn : s.n = n)
    (hskel : ∀ i, i < n → s.links i = L i ∨ s.links i = (L i).swap) {u : Nat}
    (hdesc : Desc L n root d par root u) : d u ≤ (locSet s).card := by
  rcases Nat.eq_zero_or_pos (d u) with h0 | hpos
  · omega
  · have hmem : ∀ k, k ≤ d u → par^[k] u ∈ locSet s := by
      intro k hk
      have hch := ht.chain k u hdesc.1 hk
      rcases hch.1 with ⟨i, hi, hb⟩ | hroot
      · rw [← hb]
        exact (top_bot_mem_locSet hn hskel i hi).2
      · have hdk := hch.2
        rw [hroot, ht.root_depth] at hdk
        have hkdu : k = d u := by omega
        subst hkdu
        have hprev := ht.chain (d u - 1) u hdesc.1 (by omega)
        have hdprev : d (par^[d u - 1] u) = 1 := by
          rw [hprev.2]
          omega
        rcases hprev.1 with ⟨i, hi, hb⟩ | hroot'
        · have hpl := ht.parent_link i hi
          have hstep : par^[d u] u = par (par^[d u - 1] u) := by
            have harith : d u = (d u - 1) + 1 := by omega
            rw [harith]
            rw [Function.iterate_succ_apply']
            have harith2 : d u - 1 + 1 - 1 = d u - 1 := by omega
            rw [harith2]
          rw [hstep, ← hb, hpl.2]
          exact (top_bot_mem_locSet hn hskel i hi).1
        · rw [hroot', ht.root_depth] at hdprev
          omega
    have hcard := Finset.card_le_card_of_injOn (fun k => par^[k] u)
      (fun k hk => hmem k (Nat.lt_succ_iff.mp (Finset.mem_range.mp hk)))
      (fun k₁ hk₁ k₂ hk₂ heq => by
        have hb₁ : (k₁ : Nat) ≤ d u :=
          Nat.lt_succ_iff.mp (Finset.mem_range.mp (Finset.mem_coe.mp hk₁))
        have hb₂ : (k₂ : Nat) ≤ d u :=
          Nat.lt_succ_iff.mp (Finset.mem_range.mp (Finset.mem_coe.mp hk₂))
        have h1 := (ht.chain k₁ u hdesc.1 hb₁).2
        have h2 := (ht.chain k₂ u hdesc.1 hb₂).2
        simp only [] at heq
        rw [heq] at h1
        omega)
    rw [Finset.card_range] at hcard
    omega

/-- The measure of a state with nothing visited counts all endpoint
locations. -/
theorem measure_empty_pl {s : OState} (h : s.processedLocations = []) :
    measureOf s = (locSet s).card := by
  unfold measureOf
  rw [h]
  simp

/-- The reset performed by `generate_plan` before orientation (source lines
320-321). -/
def resetProcessed (s : OState) : OState :=
  { s with processedLinks := [], processedLocations := [] }

/-- The precondition at the root holds in a state with empty processed sets
and the tree's skeleton. -/
theorem orient_pre_root (ht : IsTree L n root d par pidx) {s : OState}
    (hn : s.n = n)
    (hskel : ∀ i, i < n → s.links i = L i ∨ s.links i = (L i).swap)
    (hpl : s.processedLinks = []) (hploc : s.processedLocations = []) :
    OrientPre L n root d par root s := by
  refine ⟨hn, hskel, Or.inr rfl, ?_, ?_, ?_⟩
  · intro u _
    rw [hploc]
    exact List.not_mem_nil _
  · intro i _ _ _
    rw [hpl]
    exact List.not_mem_nil _
  · intro i hi hb
    exact absurd hb (ht.bot_ne_root i hi)

/-- Fuel adequacy for a run from a fresh state: the canonical fuel
`measureOf s + 1` covers the depth of every node. -/
theorem root_fuel_ok (ht : IsTree L n root d par pidx) {s : OState}
    (hn : s.n = n)
    (hskel : ∀ i, i < n → s.links i = L i ∨ s.links i = (L i).swap)
    (hploc : s.processedLocations = []) :
    ∀ u, Desc L n root d par root u → d u < d root + (measureOf s + 1) := by
  intro u hu
  have := desc_card_bound ht hn hskel hu
  rw [measure_empty_pl hploc]
  omega

end OrientProof

/-- C2: on a link set forming a tree containing the root (witnessed by the
depth/parent maps; `IsTree.depth_is_distance` shows the depth function is the
parent-chain distance to the root), after `order_links_from_location(root)`
completes, every link has its `from_location` strictly closer to the root
than its `to_location`. -/
theorem order_links_orientation (LL : List Link) (root : Nat) (d par pidx : Nat → Nat)
    (ht : IsTree (initState LL).links LL.length root d par pidx) :
    ∀ i, i < LL.length →
      d (((orderRun root (initState LL)).links i).from_location) <
        d (((orderRun root (initState LL)).links i).to_location) := by
  intro i hi
  have hpre := orient_pre_root ht (s := initState LL) rfl
    (fun i _ => Or.inl rfl) rfl rfl
  have hfuel := root_fuel_ok ht (s := initState LL) rfl
    (fun i _ => Or.inl rfl) rfl
  have hpost := orient_main ht (measureOf (initState LL) + 1) root (initState LL)
    hpre hfuel
  have hbr : IsBR (initState LL).links LL.length root d (botOf d ((initState LL).links i)) :=
    Or.inl ⟨i, hi, rfl⟩
  have hdn := hpost.sub_done i hi (ht.root_anc hbr) (ht.bot_ne_root i hi)
  show d (((orderLinks (measureOf (initState LL) + 1) root (initState LL)).links i).from_location) <
    d (((orderLinks (measureOf (initState LL) + 1) root (initState LL)).links i).to_location)
  rw [hdn.1, dnOf_from, dnOf_to]
  have := ht.level i hi
  omega

/-- A small concrete tree used by witnesses: the root 0, a reversed link
stored as 1→0, and a link 1→2. -/
def wTreeLinks : List Link :=
  [plainLink 1 0 LinkType.Fibre false 1, plainLink 1 2 LinkType.Fibre false 1]

/-- Depths of the witness tree. -/
def wTreeDepth : Nat → Nat := fun v => if v = 0 then 0 else if v = 1 then 1 else 2

/-- Parents of the witness tree. -/
def wTreePar : Nat → Nat := fun v => if v = 2 then 1 else 0

/-- Parent-link indices of the witness tree. -/
def wTreePidx : Nat → Nat := fun v => if v = 2 then 1 else 0

theorem wTree_isTree : IsTree (initState wTreeLinks).links wTreeLinks.length 0
    wTreeDepth wTreePar wTreePidx :=
  ⟨by decide, by decide, by decide, by decide, by decide⟩

/-- Witness for C2: on the concrete witness tree the run points both links
strictly away from the root. -/
theorem order_links_orientation_w :
    IsTree (initState wTreeLinks).links wTreeLinks.length 0
      wTreeDepth wTreePar wTreePidx ∧
    wTreeDepth (((orderRun 0 (initState wTreeLinks)).links 0).from_location) <
      wTreeDepth (((orderRun 0 (initState wTreeLinks)).links 0).to_location) ∧
    wTreeDepth (((orderRun 0 (initState wTreeLinks)).links 1).from_location) <
      wTreeDepth (((orderRun 0 (initState wTreeLinks)).links 1).to_location) :=
  ⟨wTree_isTree,
   order_links_orientation wTreeLinks 0 wTreeDepth wTreePar wTreePidx wTree_isTree 0
     (by decide),
   order_links_orientation wTreeLinks 0 wTreeDepth wTreePar wTreePidx wTree_isTree 1
     (by decide)⟩

/-- C5: on a tree, running orientation a second time — with the processed
sets reset exactly as `generate_plan` does — leaves every link unchanged:
no further swaps occur. -/
theorem order_links_idempotent (LL : List Link) (root : Nat) (d par pidx : Nat → Nat)
    (ht : IsTree (initState LL).links LL.length root d par pidx) :
    ∀ i, i < LL.length →
      (orderRun root (resetProcessed (orderRun root (initState LL)))).links i =
        (orderRun root (initState LL)).links i := by
  intro i hi
  have hpre1 := orient_pre_root ht (s := initState LL) rfl
    (fun i _ => Or.inl rfl) rfl rfl
  have hfuel1 := root_fuel_ok ht (s := initState LL) rfl
    (fun i _ => Or.inl rfl) rfl
  have hpost1 := orient_main ht (measureOf (initState LL) + 1) root (initState LL)
    hpre1 hfuel1
  have hdn1 : ∀ j, j < LL.length →
      (orderRun root (initState LL)).links j = dnOf d ((initState LL).links j) := by
    intro j hj
    exact (hpost1.sub_done j hj (ht.root_anc (Or.inl ⟨j, hj, rfl⟩))
      (ht.bot_ne_root j hj)).1
  have hskel2 : ∀ j, j < LL.length →
      (resetProcessed (orderRun root (initState LL))).links j = (initState LL).links j ∨
      (resetProcessed (orderRun root (initState LL))).links j =
        ((initState LL).links j).swap := by
    intro j hj
    have : (resetProcessed (orderRun root (initState LL))).links j =
        (orderRun root (initState LL)).links j := rfl
    rw [this, hdn1 j hj]
    exact dnOf_or d _
  have hn2 : (resetProcessed (orderRun root (initState LL))).n = LL.length :=
    hpost1.n_eq
  have hpre2 := orient_pre_root ht (s := resetProcessed (orderRun root (initState LL)))
    hn2 hskel2 rfl rfl
  have hfuel2 := root_fuel_ok ht (s := resetProcessed (orderRun root (initState LL)))
    hn2 hskel2 rfl
  have hpost2 := orient_main ht
    (measureOf (resetProcessed (orderRun root (initState LL))) + 1) root
    (resetProcessed (orderRun root (initState LL))) hpre2 hfuel2
  have hdn2 := (hpost2.sub_done i hi (ht.root_anc (Or.inl ⟨i, hi, rfl⟩))
    (ht.bot_ne_root i hi)).1
  show (orderLinks (measureOf (resetProcessed (orderRun root (initState LL))) + 1) root
      (resetProcessed (orderRun root (initState LL)))).links i =
    (orderRun root (initState LL)).links i
  rw [hdn2, hdn1 i hi]

/-! ## `generate_plan` (source lines 303-357)

The loading phase is taken as input (`locations`, `links`, as produced by
`get_locations` / `get_links`); the modelled part starts at root selection. -/

/-- Root selection (source lines 311-318): a truthy configured core name that
matches a loaded location is the root; otherwise a warning is recorded and
the first available location is used — `list(self.locations.values())[0]`,
which raises IndexError on an empty location set, modelled as `none`. -/
def selectRoot (core : Option Nat) (locations : List Location) :
    Option (Nat × List Warning) :=
  match core with
  | some c =>
    if c ∈ locations.map Location.name then some (c, [])
    else
      match locations with
      | [] => none
      | l :: _ => some (l.name, [Warning.unresolvedRoot (some c)])
  | none =>
    match locations with
    | [] => none
    | l :: _ => some (l.name, [Warning.unresolvedRoot none])

/-- The `cores_required` lookup behind `location.cores_required` in the
validator: locations live in a name-keyed dict, so the last loaded location
of a name wins; names never loaded are unreachable in faithful runs. -/
def reqOf (locations : List Location) : Nat → Nat := fun v =>
  match locations.reverse.find? (fun l => l.name == v) with
  | some l => l.cores_required
  | none => 0

/-- The outcome of `generate_plan`: chosen root, final link store (oriented,
with `cores_used` filled in), logical links, accumulated warnings. -/
structure PlanResult where
  root : Nat
  state : OState
  logical_links : List LogicalLink
  warnings : List Warning

/-- `generate_plan` from root selection onward.  `none` models an abort: the
IndexError of the root fallback on an empty location set, or the
never-returning recursion of the validator / coalescer on malformed cyclic
link graphs; on a tree the chosen fuel (twice the link count plus two)
always suffices, which the adequacy lemmas below establish. -/
def generate_plan (core : Option Nat) (locations : List Location)
    (links : List Link) : Option PlanResult :=
  match selectRoot core locations with
  | none => none
  | some (root, ws0) =>
    let s1 := orderRun root { initState links with warnings := ws0 }
    match validate_child_link_cores (2 * links.length + 2) (reqOf locations) root s1 with
    | none => none
    | some (_, s2) =>
      match coalesceLoop (2 * links.length + 2) s2 root (locations.map Location.name) with
      | none => none
      | some (lls, ws) => some ⟨root, s2, lls, s2.warnings ++ ws⟩

/-- Witness for C5 on the concrete witness tree. -/
theorem order_links_idempotent_w :
    IsTree (initState wTreeLinks).links wTreeLinks.length 0
      wTreeDepth wTreePar wTreePidx ∧
    (orderRun 0 (resetProcessed (orderRun 0 (initState wTreeLinks)))).links 0 =
      (orderRun 0 (initState wTreeLinks)).links 0 ∧
    (orderRun 0 (resetProcessed (orderRun 0 (initState wTreeLinks)))).links 1 =
      (orderRun 0 (initState wTreeLinks)).links 1 :=
  ⟨wTree_isTree,
   order_links_idempotent wTreeLinks 0 wTreeDepth wTreePar wTreePidx wTree_isTree 0
     (by decide),
   order_links_idempotent wTreeLinks 0 wTreeDepth wTreePar wTreePidx wTree_isTree 1
     (by decide)⟩

/-! ## Fuel adequacy of the validator and the coalescer on oriented trees -/

/-- The validator loop never fails provided the recursion answers at every
child it is actually asked about. -/
theorem validateLoop_adequate (rec : Nat → OState → Option (Nat × OState))
    (L : Nat → Link) (nv loc : Nat)
    (hrecK : ∀ u t, keyEq t.links L → t.n = nv →
      ∀ c t', rec u t = some (c, t') → keyEq t'.links L ∧ t'.n = nv)
    (hrecA : ∀ i t, i < nv → (L i).type = LinkType.Fibre →
      (L i).from_location = loc → (L i).aggregated = false →
      keyEq t.links L → t.n = nv → rec ((L i).to_location) t ≠ none) :
    ∀ (js : List Nat) (acc : Nat) (s : OState), (∀ j ∈ js, j < nv) →
      keyEq s.links L → s.n = nv →
      validateLoop rec loc js acc s ≠ none
  | [], acc, s, _, _, _ => by
    rw [validateLoop]
    exact fun h => Option.noConfusion h
  | i :: rest, acc, s, hjs, hk, hn => by
    obtain ⟨hfrom, hto, htype, hcores, hagg⟩ := hk i
    rw [validateLoop]
    by_cases hcond : (s.links i).type = LinkType.Fibre ∧ (s.links i).from_location = loc
    · rw [if_pos hcond]
      by_cases ha : (s.links i).aggregated
      · rw [if_pos ha]
        exact validateLoop_adequate rec L nv loc hrecK hrecA rest (acc + 0)
          (setCoresUsed s i 1) (fun j hj => hjs j (List.mem_cons_of_mem _ hj))
          (keyEq_trans (keyEq_setCoresUsed s i 1) hk) hn
      · rw [if_neg ha]
        have hinv : i < nv := hjs i (List.mem_cons_self _ _)
        have hL : (L i).type = LinkType.Fibre ∧ (L i).from_location = loc :=
          ⟨htype ▸ hcond.1, hfrom ▸ hcond.2⟩
        have haL : (L i).aggregated = false := by
          rw [← hagg]
          exact Bool.not_eq_true _ ▸ eq_false_of_ne_true ha
        have hne := hrecA i s hinv hL.1 hL.2 haL hk hn
        rw [← hto] at hne
        rcases hrc : rec (s.links i).to_location s with _ | ⟨c, t'⟩
        · exact absurd hrc hne
        · obtain ⟨hk', hn'⟩ := hrecK _ s hk hn c t' hrc
          have hk2 : keyEq (setCoresUsed t' i c).links L :=
            keyEq_trans (keyEq_setCoresUsed t' i c) hk'
          show validateLoop rec loc rest (acc + c)
              (if (s.links i).cores < c then
                { setCoresUsed t' i c with warnings := (setCoresUsed t' i c).warnings ++
                    [Warning.capacityShortfall loc (s.links i).to_location c
                      (s.links i).cores] }
              else setCoresUsed t' i c) ≠ none
          by_cases hlt : (s.links i).cores < c
          · rw [if_pos hlt]
            exact validateLoop_adequate rec L nv loc hrecK hrecA rest (acc + c) _
              (fun j hj => hjs j (List.mem_cons_of_mem _ hj)) hk2 hn'
          · rw [if_neg hlt]
            exact validateLoop_adequate rec L nv loc hrecK hrecA rest (acc + c) _
              (fun j hj => hjs j (List.mem_cons_of_mem _ hj)) hk2 hn'
    · rw [if_neg hcond]
      exact validateLoop_adequate rec L nv loc hrecK hrecA rest acc s
        (fun j hj => hjs j (List.mem_cons_of_mem _ hj)) hk hn

/-- Fuel adequacy of `_validate_child_link_cores`: on a store whose fibre
links strictly descend in a depth function, fuel covering the depth spread
below the visited location makes the recursion return. -/
theorem validate_adequate (req : Nat → Nat) (L : Nat → Link) (nv : Nat)
    (d : Nat → Nat) (hd : FibreDown d L nv) :
    ∀ (fuel loc : Nat) (s : OState), keyEq s.links L → s.n = nv →
      (∀ i, i < nv → (L i).type = LinkType.Fibre →
        d ((L i).to_location) < d loc + (fuel + 1)) →
      validate_child_link_cores (fuel + 1) req loc s ≠ none
  | 0, loc, s, hk, hn, hdep => by
    rw [validate_child_link_cores]
    subst hn
    refine validateLoop_adequate _ L s.n loc ?_ ?_ (List.range s.n) (req loc) s
      (fun j hj => List.mem_range.mp hj) hk rfl
    · intro u t _ _ c t' h
      rw [validate_child_link_cores] at h
      cases h
    · intro i t hi htyp hfrom _ _ _
      have h1 := hd i hi htyp
      have h2 := hdep i hi htyp
      rw [hfrom] at h1
      exact absurd h2 (by omega)
  | fuel + 1, loc, s, hk, hn, hdep => by
    rw [validate_child_link_cores]
    subst hn
    refine validateLoop_adequate _ L s.n loc ?_ ?_ (List.range s.n) (req loc) s
      (fun j hj => List.mem_range.mp hj) hk rfl
    · intro u t hk' hn' c t' h
      exact (validate_spec (fuel + 1) req L s.n u t hk' hn').2 c t' h
    · intro i t hi htyp hfrom _ hk' hn'
      refine validate_adequate req L s.n d hd fuel ((L i).to_location) t hk' hn' ?_
      intro j hj htj
      have h1 := hd i hi htyp
      have h2 := hdep j hj htj
      rw [hfrom] at h1
      omega

/-- `findUplink` returns an in-range index whose link ends at the location. -/
theorem findUplink_some {s : OState} {loc i : Nat} (h : findUplink s loc = some i) :
    i < s.n ∧ (s.links i).to_location = loc := by
  unfold findUplink at h
  have hmem := List.mem_of_find?_eq_some h
  have hpred := List.find?_some h
  exact ⟨List.mem_range.mp hmem, by simpa using hpred⟩

/-- A location without an uplink coalesces immediately at any positive fuel. -/
theorem mll_noUplink (fuel : Nat) (s : OState) (loc : Nat) (ll : LogicalLink)
    (h : findUplink s loc = none) :
    make_logical_link (fuel + 1) s loc ll = some ll := by
  rw [make_logical_link, h]

/-- Fuel adequacy of `_make_logical_link`: on a store whose links all
strictly descend in a depth function, the climb toward the core terminates —
fuel exceeding the depth of the start suffices. -/
theorem mll_adequate (d : Nat → Nat) :
    ∀ (fuel : Nat) (s : OState) (loc : Nat) (ll : LogicalLink),
      (∀ i, i < s.n → d ((s.links i).from_location) < d ((s.links i).to_location)) →
      d loc < fuel →
      make_logical_link fuel s loc ll ≠ none
  | 0, _, _, _, _, hfuel => absurd hfuel (by omega)
  | fuel + 1, s, loc, ll, hdown, hfuel => by
    rw [make_logical_link]
    rcases hup : findUplink s loc with _ | i
    · exact fun h => Option.noConfusion h
    · obtain ⟨hin, hto⟩ := findUplink_some hup
      show (if ll.type ≠ none ∧ ll.type ≠ some ((s.links i).type) then some ll
        else
          if (s.links i).type = LinkType.Fibre ∧ (s.links i).aggregated = false then
            make_logical_link fuel s ((s.links i).from_location)
              { from_location := some ((s.links i).from_location)
                to_location := ll.to_location
                type := some ((s.links i).type)
                physical_links := ll.physical_links ++ [s.links i] }
          else
            some { from_location := some ((s.links i).from_location)
                   to_location := ll.to_location
                   type := some ((s.links i).type)
                   physical_links := ll.physical_links ++ [s.links i] }) ≠ none
      by_cases hmis : ll.type ≠ none ∧ ll.type ≠ some ((s.links i).type)
      · rw [if_pos hmis]
        exact fun h => Option.noConfusion h
      · rw [if_neg hmis]
        by_cases hext : (s.links i).type = LinkType.Fibre ∧ (s.links i).aggregated = false
        · rw [if_pos hext]
          refine mll_adequate d fuel s ((s.links i).from_location) _ hdown ?_
          have := hdown i hin
          rw [hto] at this
          omega
        · rw [if_neg hext]
          exact fun h => Option.noConfusion h

/-- Fuel adequacy of the coalescing pass: with all links descending and fuel
above every link's bottom depth, no location fails to coalesce. -/
theorem coalesce_adequate (d : Nat → Nat) (fuel : Nat) (s : OState) (root : Nat)
    (hdown : ∀ i, i < s.n → d ((s.links i).from_location) < d ((s.links i).to_location))
    (hbound : ∀ i, i < s.n → d ((s.links i).to_location) < fuel + 1) :
    ∀ names : List Nat, coalesceLoop (fuel + 1) s root names ≠ none
  | [] => by
    rw [coalesceLoop]
    exact fun h => Option.noConfusion h
  | name :: rest => by
    rw [coalesceLoop]
    by_cases hr : name = root
    · rw [if_pos hr]
      exact coalesce_adequate d fuel s root hdown hbound rest
    · rw [if_neg hr]
      have hml : make_logical_link (fuel + 1) s name
          { from_location := none, to_location := name, type := none,
            physical_links := [] } ≠ none := by
        rcases hup : findUplink s name with _ | i
        · rw [mll_noUplink fuel s name _ hup]
          exact fun h => Option.noConfusion h
        · obtain ⟨hin, hto⟩ := findUplink_some hup
          refine mll_adequate d (fuel + 1) s name _ hdown ?_
          rw [← hto]
          exact hbound i hin
      rcases hml' : make_logical_link (fuel + 1) s name
          { from_location := none, to_location := name, type := none,
            physical_links := [] } with _ | ll
      · exact absurd hml' hml
      · rcases hrest : coalesceLoop (fuel + 1) s root rest with _ | ⟨lls, ws⟩
        · exact absurd hrest (coalesce_adequate d fuel s root hdown hbound rest)
        · show (if ll.type = none then some (lls, Warning.untraceableUplink name :: ws)
              else some (ll :: lls, ws)) ≠ none
          by_cases hty : ll.type = none
          · rw [if_pos hty]
            exact fun h => Option.noConfusion h
          · rw [if_neg hty]
            exact fun h => Option.noConfusion h

/-- The endpoint-location set has at most two members per link. -/
theorem locSet_card_le (s : OState) : (locSet s).card ≤ 2 * s.n := by
  unfold locSet
  refine le_trans Finset.card_biUnion_le ?_
  refine le_trans (Finset.sum_le_sum
    (fun i _ => le_trans (Finset.card_insert_le _ _)
      (by rw [Finset.card_singleton]))) ?_
  rw [Finset.sum_const, Finset.card_range, smul_eq_mul]
  omega

/-- After the orientation run from the tree's root — starting, as
`generate_plan` does, from freshly loaded links with empty processed sets and
the root-selection warnings already recorded — every link sits in its
downward orientation. -/
theorem run_all_down (LL : List Link) (root : Nat) (d par pidx : Nat → Nat)
    (ws0 : List Warning)
    (ht : IsTree (initState LL).links LL.length root d par pidx) :
    ∀ i, i < LL.length →
      (orderRun root { initState LL with warnings := ws0 }).links i =
        dnOf d ((initState LL).links i) := by
  intro i hi
  have hpre := orient_pre_root ht (s := { initState LL with warnings := ws0 }) rfl
    (fun i _ => Or.inl rfl) rfl rfl
  have hfuel := root_fuel_ok ht (s := { initState LL with warnings := ws0 }) rfl
    (fun i _ => Or.inl rfl) rfl
  have hpost := orient_main ht (measureOf { initState LL with warnings := ws0 } + 1)
    root { initState LL with warnings := ws0 } hpre hfuel
  exact (hpost.sub_done i hi (ht.root_anc (Or.inl ⟨i, hi, rfl⟩))
    (ht.bot_ne_root i hi)).1

/-- The length of the link store survives the orientation run. -/
theorem orderRun_n (loc : Nat) (s : OState) : (orderRun loc s).n = s.n :=
  (evol_orderLinks (measureOf s + 1) loc s).n_eq

/-- The bottom depth of every tree link is bounded by twice the number of
links: the parent chain from the bottom visits distinct endpoint locations. -/
theorem bot_depth_le (LL : List Link) (root : Nat) (d par pidx : Nat → Nat)
    (ht : IsTree (initState LL).links LL.length root d par pidx) :
    ∀ i, i < LL.length →
      d (botOf d ((initState LL).links i)) ≤ 2 * LL.length := by
  intro i hi
  have hb := desc_card_bound ht (s := initState LL) rfl (fun i _ => Or.inl rfl)
    (ht.root_anc (Or.inl ⟨i, hi, rfl⟩))
  have hc := locSet_card_le (initState LL)
  have hn : (initState LL).n = LL.length := rfl
  omega

/-- The validator loop only ever appends to the warning list. -/
theorem validateLoop_warns (rec : Nat → OState → Option (Nat × OState)) (loc : Nat)
    (hrecW : ∀ u t c t', rec u t = some (c, t') → ∃ w, t'.warnings = t.warnings ++ w) :
    ∀ (js : List Nat) (acc : Nat) (s : OState) (r : Nat) (t : OState),
      validateLoop rec loc js acc s = some (r, t) → ∃ w, t.warnings = s.warnings ++ w
  | [], acc, s, r, t, h => by
    rw [validateLoop] at h
    cases h
    exact ⟨[], (List.append_nil _).symm⟩
  | i :: rest, acc, s, r, t, h => by
    rw [validateLoop] at h
    by_cases hcond : (s.links i).type = LinkType.Fibre ∧ (s.links i).from_location = loc
    · rw [if_pos hcond] at h
      by_cases ha : (s.links i).aggregated
      · rw [if_pos ha] at h
        exact validateLoop_warns rec loc hrecW rest (acc + 0) (setCoresUsed s i 1) r t h
      · rw [if_neg ha] at h
        rcases hrc : rec (s.links i).to_location s with _ | ⟨c, t'⟩
        · rw [hrc] at h
          cases h
        · rw [hrc] at h
          obtain ⟨w1, hw1⟩ := hrecW _ s c t' hrc
          have h2 : validateLoop rec loc rest (acc + c)
              (if (s.links i).cores < c then
                { setCoresUsed t' i c with warnings := (setCoresUsed t' i c).warnings ++
                    [Warning.capacityShortfall loc (s.links i).to_location c
                      (s.links i).cores] }
              else setCoresUsed t' i c) = some (r, t) := h
          by_cases hlt : (s.links i).cores < c
          · rw [if_pos hlt] at h2
            obtain ⟨w2, hw2⟩ := validateLoop_warns rec loc hrecW rest (acc + c) _ r t h2
            refine ⟨w1 ++ [Warning.capacityShortfall loc (s.links i).to_location c
              (s.links i).cores] ++ w2, ?_⟩
            rw [hw2]
            show (t'.warnings ++ [Warning.capacityShortfall loc (s.links i).to_location c
              (s.links i).cores]) ++ w2 = s.warnings ++
                (w1 ++ [Warning.capacityShortfall loc (s.links i).to_location c
                  (s.links i).cores] ++ w2)
            rw [hw1]
            simp [List.append_assoc]
          · rw [if_neg hlt] at h2
            obtain ⟨w2, hw2⟩ := validateLoop_warns rec loc hrecW rest (acc + c) _ r t h2
            refine ⟨w1 ++ w2, ?_⟩
            rw [hw2]
            show t'.warnings ++ w2 = s.warnings ++ (w1 ++ w2)
            rw [hw1, List.append_assoc]
    · rw [if_neg hcond] at h
      exact validateLoop_warns rec loc hrecW rest acc s r t h

/-- `_validate_child_link_cores` only ever appends to the warning list. -/
theorem validate_warns : ∀ (fuel : Nat) (req : Nat → Nat) (loc : Nat) (s : OState)
    (r : Nat) (t : OState), validate_child_link_cores fuel req loc s = some (r, t) →
    ∃ w, t.warnings = s.warnings ++ w
  | 0, req, loc, s, r, t, h => by
    rw [validate_child_link_cores] at h
    cases h
  | fuel + 1, req, loc, s, r, t, h => by
    rw [validate_child_link_cores] at h
    exact validateLoop_warns _ loc
      (fun u t' c t'' h' => validate_warns fuel req u t' c t'' h')
      (List.range s.n) (req loc) s r t h

/-- On a tree the orientation run leaves the warning list untouched. -/
theorem run_warns (LL : List Link) (root : Nat) (d par pidx : Nat → Nat)
    (ws0 : List Warning)
    (ht : IsTree (initState LL).links LL.length root d par pidx) :
    (orderRun root { initState LL with warnings := ws0 }).warnings = ws0 := by
  have hpre := orient_pre_root ht (s := { initState LL with warnings := ws0 }) rfl
    (fun i _ => Or.inl rfl) rfl rfl
  have hfuel := root_fuel_ok ht (s := { initState LL with warnings := ws0 }) rfl
    (fun i _ => Or.inl rfl) rfl
  exact (orient_main ht (measureOf { initState LL with warnings := ws0 } + 1)
    root { initState LL with warnings := ws0 } hpre hfuel).warns

/-- C9 (amended): best-effort totality of `generate_plan` holds only for a
nonempty location set.  (1) A configured core name matching no loaded
location makes root selection record an unresolved-root warning and fall
back to the first available location; (2) whenever root selection succeeds
and the loaded links form a tree rooted at the selected root, `generate_plan`
returns a result whose root is the selected one and whose warning list
extends the root-selection warnings.  On an empty location set the fallback
`list(self.locations.values())[0]` raises instead (see the counterexample). -/
theorem generate_plan_total :
    (∀ (c : Nat) (l : Location) (ls : List Location),
        c ∉ (l :: ls).map Location.name →
        selectRoot (some c) (l :: ls) =
          some (l.name, [Warning.unresolvedRoot (some c)])) ∧
    (∀ (core : Option Nat) (locations : List Location) (LL : List Link)
        (d par pidx : Nat → Nat) (r : Nat) (ws0 : List Warning),
        selectRoot core locations = some (r, ws0) →
        IsTree (initState LL).links LL.length r d par pidx →
        ∃ res : PlanResult, generate_plan core locations LL = some res ∧
          res.root = r ∧ ∃ rest, res.warnings = ws0 ++ rest) := by
  constructor
  · intro c l ls hc
    simp only [selectRoot]
    rw [if_neg hc]
  · intro core locations LL d par pidx r ws0 hsel ht
    set s1 : OState := orderRun r { initState LL with warnings := ws0 } with hs1
    have hn1 : s1.n = LL.length :=
      orderRun_n r { initState LL with warnings := ws0 }
    have hdn : ∀ i, i < LL.length →
        s1.links i = dnOf d ((initState LL).links i) :=
      run_all_down LL r d par pidx ws0 ht
    have hdown1 : ∀ i, i < s1.n →
        d ((s1.links i).from_location) < d ((s1.links i).to_location) := by
      intro i hi
      rw [hn1] at hi
      rw [hdn i hi, dnOf_from, dnOf_to]
      have := ht.level i hi
      omega
    have hbound1 : ∀ i, i < s1.n →
        d ((s1.links i).to_location) ≤ 2 * LL.length := by
      intro i hi
      rw [hn1] at hi
      rw [hdn i hi, dnOf_to]
      exact bot_depth_le LL r d par pidx ht i hi
    have hFD : FibreDown d s1.links s1.n := fun i hi _ => hdown1 i hi
    have hval : validate_child_link_cores (2 * LL.length + 1 + 1) (reqOf locations)
        r s1 ≠ none := by
      refine validate_adequate (reqOf locations) s1.links s1.n d hFD
        (2 * LL.length + 1) r s1 (keyEq_refl _) rfl ?_
      intro i hi _
      have := hbound1 i hi
      omega
    rcases hv : validate_child_link_cores (2 * LL.length + 2) (reqOf locations) r s1
      with _ | ⟨c2, s2⟩
    · exact absurd hv hval
    · have hks2 : keyEq s2.links s1.links ∧ s2.n = s1.n :=
        (validate_spec (2 * LL.length + 2) (reqOf locations) s1.links s1.n r s1
          (keyEq_refl _) rfl).2 c2 s2 hv
      have hdown2 : ∀ i, i < s2.n →
          d ((s2.links i).from_location) < d ((s2.links i).to_location) := by
        intro i hi
        obtain ⟨hf, htl, _, _, _⟩ := hks2.1 i
        rw [hf, htl]
        exact hdown1 i (hks2.2 ▸ hi)
      have hbound2 : ∀ i, i < s2.n →
          d ((s2.links i).to_location) < 2 * LL.length + 1 + 1 := by
        intro i hi
        obtain ⟨_, htl, _, _, _⟩ := hks2.1 i
        rw [htl]
        have := hbound1 i (hks2.2 ▸ hi)
        omega
      have hco : coalesceLoop (2 * LL.length + 1 + 1) s2 r
          (locations.map Location.name) ≠ none :=
        coalesce_adequate d (2 * LL.length + 1) s2 r hdown2 hbound2
          (locations.map Location.name)
      rcases hc2 : coalesceLoop (2 * LL.length + 2) s2 r (locations.map Location.name)
        with _ | ⟨lls, ws⟩
      · exact absurd hc2 hco
      · obtain ⟨w1, hw1⟩ := validate_warns (2 * LL.length + 2) (reqOf locations) r s1
          c2 s2 hv
      -- the warnings of s2 extend the root-selection warnings
        have hw0 : s1.warnings = ws0 := run_warns LL r d par pidx ws0 ht
        refine ⟨⟨r, s2, lls, s2.warnings ++ ws⟩, ?_, rfl, w1 ++ ws, ?_⟩
        · show ((match selectRoot core locations with
            | none => none
            | some (root, ws0) =>
              let s1 := orderRun root { initState LL with warnings := ws0 }
              match validate_child_link_cores (2 * LL.length + 2) (reqOf locations)
                  root s1 with
              | none => none
              | some (_, s2) =>
                match coalesceLoop (2 * LL.length + 2) s2 root
                    (locations.map Location.name) with
                | none => none
                | some (lls, ws) => some { root := root, state := s2, logical_links := lls, warnings := s2.warnings ++ ws }) : Option PlanResult) =
            some { root := r, state := s2, logical_links := lls, warnings := s2.warnings ++ ws }
          rw [hsel]
          show ((match validate_child_link_cores (2 * LL.length + 2) (reqOf locations)
              r s1 with
            | none => none
            | some (_, s2) =>
              match coalesceLoop (2 * LL.length + 2) s2 r
                  (locations.map Location.name) with
              | none => none
              | some (lls, ws) => some { root := r, state := s2, logical_links := lls, warnings := s2.warnings ++ ws }) : Option PlanResult) =
            some { root := r, state := s2, logical_links := lls, warnings := s2.warnings ++ ws }
          rw [hv]
          show ((match coalesceLoop (2 * LL.length + 2) s2 r
              (locations.map Location.name) with
            | none => none
            | some (lls, ws) => some { root := r, state := s2, logical_links := lls, warnings := s2.warnings ++ ws }) : Option PlanResult) =
            some { root := r, state := s2, logical_links := lls, warnings := s2.warnings ++ ws }
          rw [hc2]
        · show s2.warnings ++ ws = ws0 ++ (w1 ++ ws)
          rw [hw1, hw0, List.append_assoc]

/-- The location list used by the C9 witness: names 0 and 2, neither equal to
the configured core 9. -/
def wLocs : List Location :=
  [{ name := 0, cores_required := 1, deployed := true },
   { name := 2, cores_required := 1, deployed := true }]

/-- Witness for C9 on the concrete witness tree with unmatched core 9: root
selection falls back to location 0 with a warning and the plan is produced. -/
theorem generate_plan_total_w :
    selectRoot (some 9) wLocs = some (0, [Warning.unresolvedRoot (some 9)]) ∧
    (∃ res : PlanResult, generate_plan (some 9) wLocs wTreeLinks = some res ∧
      res.root = 0 ∧
      ∃ rest, res.warnings = [Warning.unresolvedRoot (some 9)] ++ rest) :=
  ⟨generate_plan_total.1 9
      { name := 0, cores_required := 1, deployed := true }
      [{ name := 2, cores_required := 1, deployed := true }] (by decide),
   generate_plan_total.2 (some 9) wLocs wTreeLinks wTreeDepth wTreePar wTreePidx 0
      [Warning.unresolvedRoot (some 9)]
      (generate_plan_total.1 9
        { name := 0, cores_required := 1, deployed := true }
        [{ name := 2, cores_required := 1, deployed := true }] (by decide))
      wTree_isTree⟩

/-- Counterexample to C9 as stated: with an empty location set the root
fallback indexes `list(self.locations.values())[0]` of an empty list, so
`generate_plan` aborts with an IndexError (modelled as `none`) instead of
producing a best-effort result. -/
theorem generate_plan_total_cex :
    generate_plan (some 5) ([] : List Location) ([] : List Link) = none := rfl

end NocPlugin
